import Mathlib

/-!
# Inline Attribute Lists (`ial.go`)

A shallow embedding of the IAL scanner (`isIAL`), the key/value splitter
(`parseKeyValue`), the merge operator (`IAL.add`), the renderer (`IAL.String`) and the
consumption accessors (`IAL.GetOrDefaultAttr`, `IAL.GetOrDefaultId`) of `ial.go`,
followed by theorems about them.

Modelling conventions:

* Go `[]byte` and `string` values are finite byte sequences; both are `Bytes`.
* A Go `map[string]V` is a finite map; `GoMap V` is an association list whose
  keys are pairwise distinct.  The list order plays the part of the (unspecified)
  iteration order of `range`.
* A `*IAL` that may be `nil` is an `Option IAL`.
* A run-time panic (slice bounds out of range, index out of range) is `none`.
-/

namespace Mmark

/-- A Go byte string (`[]byte` or `string`).  A byte is represented by a `Char`: the
program only compares bytes with ASCII constants. -/
abbrev Bytes := List Char

/-! ## Go maps with string keys -/

/-- A Go `map[string]V`: finitely many entries with pairwise distinct keys. -/
structure GoMap (V : Type) where
  entries : List (Bytes × V)
  nodup : (entries.map Prod.fst).Nodup

namespace GoMap

variable {V : Type}

instance [DecidableEq V] : DecidableEq (GoMap V) := fun a b =>
  decidable_of_iff (a.entries = b.entries) (by
    cases a; cases b; simp)

/-- The value of `make(map[string]V)`: the empty map. -/
def empty : GoMap V := ⟨[], List.nodup_nil⟩

/-- The lookup `v, ok := m[k]`; `none` stands for `ok == false`. -/
def get (m : GoMap V) (k : Bytes) : Option V :=
  (m.entries.find? (fun e => decide (e.1 = k))).map Prod.snd

/-- The keys of the map, in iteration order. -/
def keys (m : GoMap V) : List Bytes := m.entries.map Prod.fst

/-- The assignment `m[k] = v`. -/
def set (m : GoMap V) (k : Bytes) (v : V) : GoMap V :=
  ⟨(k, v) :: m.entries.filter (fun e => decide (e.1 ≠ k)), by
    rw [List.map_cons, List.nodup_cons]
    refine ⟨?_, m.nodup.sublist ((List.filter_sublist m.entries).map Prod.fst)⟩
    intro hmem
    rcases List.mem_map.1 hmem with ⟨e, he, hk⟩
    have hne := (List.mem_filter.1 he).2
    simp only [ne_eq, decide_not, Bool.not_eq_eq_eq_not, Bool.not_true,
      decide_eq_false_iff_not] at hne
    exact hne hk⟩

/-- The entries visited by `for k, v := range m`, in iteration order. -/
def range (m : GoMap V) : List (Bytes × V) := m.entries

end GoMap

/-! ## The attribute set -/

/-- The struct `IAL`: `id` (`#id`), `class_` (the field `class`, zero or more `.class`) and
`attr` (`key=value` pairs). -/
structure IAL where
  id : Bytes
  class_ : GoMap Bool
  attr : GoMap Bytes
  deriving DecidableEq

/-- The constructor `newIAL`: empty id and two freshly made maps. -/
def newIAL : IAL := { id := [], class_ := GoMap.empty, attr := GoMap.empty }

/-- The part of the host `parser` that `ial.go` reads and writes: the running aggregate
`p.ial`, a `*IAL` that is `nil` until the first merge. -/
structure parser where
  ial : Option IAL
  deriving DecidableEq

/-! ## Library functions used by the source -/

/-- The slice expression `data[lo:hi]`; it panics unless `lo ≤ hi ≤ len(data)`. -/
def slice (data : Bytes) (lo hi : Nat) : Option Bytes :=
  if lo ≤ hi ∧ hi ≤ data.length then some ((data.drop lo).take (hi - lo)) else none

/-- The call `bytes.SplitN(chunk, []byte{'='}, 2)`: the text before the first `=` and the
text after it, or the whole chunk alone when it has no `=`. -/
def splitN2 : Bytes → List Bytes
  | [] => [[]]
  | c :: cs =>
    if c = '=' then [[], cs]
    else
      match splitN2 cs with
      | [a] => [c :: a]
      | [a, b] => [c :: a, b]
      | r => r

/-- The call `bytes.Replace(s, []byte{'"'}, nil, -1)`: every double quote removed. -/
def stripQuotes (s : Bytes) : Bytes := s.filter (fun c => decide (c ≠ '"'))

/-! ## The source functions -/

/-- The function `parseKeyValue`. -/
def parseKeyValue (chunk : Bytes) : Bytes × Bytes :=
  match splitN2 chunk with
  | [k, v] => (k, stripQuotes v)
  | _ => ([], [])

/-- The method `(*IAL).add` with receiver `i` (possibly `nil`) and a non-nil argument `j`;
the result is the returned pointer's target. -/
def IAL.add (i : Option IAL) (j : IAL) : IAL :=
  match i with
  | none => j
  | some i =>
    let i := if j.id ≠ [] then { i with id := j.id } else i
    let i := j.class_.range.foldl (fun (i : IAL) kc => { i with class_ := i.class_.set kc.1 kc.2 }) i
    let i := j.attr.range.foldl (fun (i : IAL) ka => { i with attr := i.attr.set ka.1 ka.2 }) i
    i

/-- The token classification that `isIAL` performs on a chunk (the inner `switch`, written
out twice in the source): `chunk[0]` panics on an empty chunk. -/
def classify (ial : IAL) (chunk : Bytes) : Option IAL :=
  match chunk with
  | [] => none
  | c :: tl =>
    if c = '.' then some { ial with class_ := ial.class_.set tl true }
    else if c = '#' then some { ial with id := tl }
    else
      let kv := parseKeyValue chunk
      if kv.1 ≠ [] then some { ial with attr := ial.attr.set kv.1 kv.2 } else some ial

/-- The reserved words tested by the `switch s` of `isIAL`. -/
def reserved (s : Bytes) : Bool :=
  decide (s = "frontmatter".toList) || decide (s = "mainmatter".toList) ||
    decide (s = "backmatter".toList)

/-- The `for` loop of `isIAL`.  The third argument is `data[i:]`, so its head is `data[i]`
and the loop ends when it is empty; then come `i`, `esc`, `quote`, `ialB` and `ial`. -/
def isIAL.scan (p : parser) (data : Bytes) :
    Bytes → Nat → Bool → Bool → Nat → IAL → Option (Nat × parser)
  | [], _, _, _, _, _ => some (0, p)
  | c :: rest, i, esc, quote, ialB, ial =>
    if c = ' ' then
      if quote then isIAL.scan p data rest (i + 1) esc quote ialB ial
      else
        match slice data (ialB + 1) i with
        | none => none
        | some chunk =>
          if chunk.length = 0 then isIAL.scan p data rest (i + 1) esc quote i ial
          else
            match classify ial chunk with
            | none => none
            | some ial1 => isIAL.scan p data rest (i + 1) esc quote i ial1
    else if c = '"' then
      if esc then isIAL.scan p data rest (i + 1) (!esc) quote ialB ial
      else isIAL.scan p data rest (i + 1) esc (!quote) ialB ial
    else if c = '\\' then isIAL.scan p data rest (i + 1) (!esc) quote ialB ial
    else if c = '}' then
      if esc then isIAL.scan p data rest (i + 1) (!esc) quote ialB ial
      else
        match slice data 1 i with
        | none => none
        | some s =>
          if reserved s then some (0, p)
          else
            match slice data (ialB + 1) i with
            | none => none
            | some chunk =>
              if chunk.length = 0 then some (i + 1, p)
              else
                match classify ial chunk with
                | none => none
                | some ial1 => some (i + 1, { p with ial := some (IAL.add p.ial ial1) })
    else isIAL.scan p data rest (i + 1) false quote ialB ial

/-- The method `(*parser).isIAL`: the returned integer and the parser afterwards, or `none`
when the call panics. -/
def isIAL (p : parser) (data : Bytes) : Option (Nat × parser) :=
  isIAL.scan p data data 0 false false 0 newIAL

/-! ## The renderer and the consumption accessors -/

/-- The statement `delete(m, k)`. -/
def GoMap.delete {V : Type} (m : GoMap V) (k : Bytes) : GoMap V :=
  ⟨m.entries.filter (fun e => decide (e.1 ≠ k)),
    m.nodup.sublist ((List.filter_sublist m.entries).map Prod.fst)⟩

/-- The index expression `m[k]` on a `map[string]string`: the stored value, or the empty
string when `k` is not a key. -/
def GoMap.index (m : GoMap Bytes) (k : Bytes) : Bytes := (m.get k).getD []

/-- The comparison `a <= b` of Go strings: bytewise lexicographic order. -/
def strLe : Bytes → Bytes → Bool
  | [], _ => true
  | _ :: _, [] => false
  | a :: as, b :: bs =>
    if a.toNat < b.toNat then true
    else if b.toNat < a.toNat then false
    else strLe as bs

/-- The order of Go strings as a relation. -/
def StrLe (a b : Bytes) : Prop := strLe a b = true

instance : DecidableRel StrLe := fun a b => by
  unfold StrLe; infer_instance

/-- The call `sort.Strings(keys)`: the strings in increasing order. -/
def sortStrings (keys : List Bytes) : List Bytes := List.insertionSort StrLe keys

/-- The call `strings.Join(elems, sep)`. -/
def stringsJoin : List Bytes → Bytes → Bytes
  | [], _ => []
  | e :: es, sep =>
    match es with
    | [] => e
    | _ :: _ => e ++ sep ++ stringsJoin es sep

/-- The method `(*IAL).String` with receiver `i` (possibly `nil`). -/
def IAL.String (i : Option IAL) : Bytes :=
  match i with
  | none => []
  | some i =>
    let s : Bytes := if i.id ≠ [] then " anchor=\"".toList ++ i.id ++ "\"".toList else []
    let keys := sortStrings (i.class_.range.map Prod.fst)
    let s := if keys.length > 0 then
      s ++ (" class=\"".toList ++ stringsJoin keys " ".toList ++ "\"".toList) else s
    let keys := sortStrings (i.attr.range.map Prod.fst)
    let attr := keys.map (fun k => k ++ "=\"".toList ++ i.attr.index k ++ "\"".toList)
    if keys.length > 0 then s ++ (" ".toList ++ stringsJoin attr " ".toList) else s

/-- The method `(*IAL).GetOrDefaultAttr` on a non-nil receiver: the returned string and the
attribute set afterwards. -/
def IAL.GetOrDefaultAttr (i : IAL) (key def_ : Bytes) : Bytes × IAL :=
  let v := i.attr.index key
  let i := { i with attr := i.attr.delete key }
  if v ≠ [] then (v, i) else (def_, i)

/-- The method `(*IAL).GetOrDefaultId` on a non-nil receiver: the returned string and the
attribute set afterwards. -/
def IAL.GetOrDefaultId (i : IAL) (id : Bytes) : Bytes × IAL :=
  if i.id ≠ [] then (i.id, { i with id := [] }) else (id, i)

/-- The loop states of `isIAL`: for every iteration that the loop of `isIAL.scan` performs,
in order, the triple of `i`, `ialB` and a flag telling whether the iteration evaluates the
slice expressions (`data[ialB+1:i]` on a space outside quotes; `data[1:i]` and
`data[ialB+1:i]` on an unescaped closing brace).  The arguments are those of `isIAL.scan`
without `ial`, which does not influence the control flow. -/
def isIAL.steps (data : Bytes) : Bytes → Nat → Bool → Bool → Nat → List (Nat × Nat × Bool)
  | [], _, _, _, _ => []
  | c :: rest, i, esc, quote, ialB =>
    if c = ' ' then
      if quote then (i, ialB, false) :: isIAL.steps data rest (i + 1) esc quote ialB
      else
        (i, ialB, true) ::
          (match slice data (ialB + 1) i with
          | none => []
          | some _ => isIAL.steps data rest (i + 1) esc quote i)
    else if c = '"' then
      if esc then (i, ialB, false) :: isIAL.steps data rest (i + 1) (!esc) quote ialB
      else (i, ialB, false) :: isIAL.steps data rest (i + 1) esc (!quote) ialB
    else if c = '\\' then (i, ialB, false) :: isIAL.steps data rest (i + 1) (!esc) quote ialB
    else if c = '}' then
      if esc then (i, ialB, false) :: isIAL.steps data rest (i + 1) (!esc) quote ialB
      else [(i, ialB, true)]
    else (i, ialB, false) :: isIAL.steps data rest (i + 1) false quote ialB

/-! ## Specification-side definitions -/

/-- Repeated assignment `m[k] = v` for the entries of a list, left to right (the body of a
`for k, v := range` loop that copies into `m`). -/
def GoMap.setAll {V : Type} (m : GoMap V) (l : List (Bytes × V)) : GoMap V :=
  l.foldl (fun m e => m.set e.1 e.2) m

/-- The id that a sequence of merges should leave behind, in the words of the specification:
the id of the most recently merged source whose id is non-empty, or the original id of the
target when there is none. -/
def lastNonEmptyId (orig : Bytes) (srcs : List IAL) : Bytes :=
  match srcs.reverse.find? (fun s => decide (s.id ≠ [])) with
  | some s => s.id
  | none => orig

/-- The escape flag after a byte, in the words of the specification: toggled by a
backslash, left as it is by a space, cleared by every other byte. -/
def escAfter (esc : Bool) (c : Char) : Bool :=
  if c = '\\' then !esc else if c = ' ' then esc else false

/-- The escape flag on reaching index `j` of `data`: it starts clear and is updated by each
of the bytes before `j`. -/
def escAt (data : Bytes) (j : Nat) : Bool := (data.take j).foldl escAfter false

/-- Index `j` holds an unescaped `}`: the byte is `}` and the escape flag is clear on
reaching it. -/
def UnescapedClose (data : Bytes) (j : Nat) : Prop :=
  data[j]? = some '}' ∧ escAt data j = false

/-- Index `j` holds the first unescaped `}` of `data`. -/
def FirstUnescapedClose (data : Bytes) (j : Nat) : Prop :=
  UnescapedClose data j ∧ ∀ j1, j1 < j → ¬ UnescapedClose data j1

/-- The bytes strictly between index `0` and index `j` of `data`. -/
def between (data : Bytes) (j : Nat) : Bytes := (data.drop 1).take (j - 1)

/-- The three reserved words. -/
def ReservedWord (s : Bytes) : Prop :=
  s = "frontmatter".toList ∨ s = "mainmatter".toList ∨ s = "backmatter".toList

instance : DecidablePred ReservedWord := fun s => by
  unfold ReservedWord; infer_instance

/-- A search for the first unescaped `}` in `rest = data[i:]`, entered with escape flag
`esc`; a recursive form of `FirstUnescapedClose` used in the proofs. -/
def firstClose : Bytes → Nat → Bool → Option Nat
  | [], _, _ => none
  | c :: rest, i, esc =>
    if c = '}' ∧ esc = false then some i else firstClose rest (i + 1) (escAfter esc c)

/-- What a completed scan returns, given where the first unescaped `}` is (if anywhere). -/
def Outcome (p : parser) (data : Bytes) (close : Option Nat) (r : Nat × parser) : Prop :=
  match close with
  | none => r = (0, p)
  | some j =>
    if reserved (between data j) then r = (0, p)
    else r.1 = j + 1 ∧ (r.2 = p ∨ ∃ a, r.2 = { ial := some (IAL.add p.ial a) })

/-- The single-space join of a list of tokens. -/
def joinSp : List Bytes → Bytes
  | [] => []
  | t :: ts =>
    match ts with
    | [] => t
    | _ :: _ => t ++ ' ' :: joinSp ts

/-- The effect of one token on an attribute set, in the words of the specification: a token
`.x` puts `x` into the classes, a token `#x` sets the id to `x`, a token containing `=` sets
the attribute named by the text before the first `=` to the text after it, and any other
token changes nothing. -/
def tokenEffect (S : IAL) (t : Bytes) : IAL :=
  match t with
  | '.' :: x => { S with class_ := S.class_.set x true }
  | '#' :: x => { S with id := x }
  | _ =>
    if '=' ∈ t then
      let key := t.takeWhile (fun c => decide (c ≠ '='))
      let value := (t.dropWhile (fun c => decide (c ≠ '='))).drop 1
      { S with attr := S.attr.set key value }
    else S

/-- A token as the specification of the token scan admits it: non-empty, without space,
double quote, backslash or closing brace, and not beginning with `=`. -/
def PlainToken (t : Bytes) : Prop :=
  t ≠ [] ∧ ' ' ∉ t ∧ '"' ∉ t ∧ '\\' ∉ t ∧ '}' ∉ t ∧ t.head? ≠ some '='

instance : DecidablePred PlainToken := fun t => by
  unfold PlainToken; infer_instance

/-- The key of a key/value token, in the words of the specification: the text before the
first `=`. -/
def tokenKey (t : Bytes) : Bytes := t.takeWhile (fun c => decide (c ≠ '='))

/-- The value of a key/value token, in the words of the specification: the text after the
first `=` with every double quote removed. -/
def tokenValue (t : Bytes) : Bytes :=
  ((t.dropWhile (fun c => decide (c ≠ '='))).drop 1).filter (fun c => decide (c ≠ '"'))

/-! ## Facts about Go maps -/

namespace GoMap

variable {V : Type}

theorem get_empty (k : Bytes) : (empty : GoMap V).get k = none := rfl

theorem keys_empty : (empty : GoMap V).keys = [] := rfl

theorem find_filter_ne (l : List (Bytes × V)) (k k1 : Bytes) (h : k1 ≠ k) :
    (l.filter (fun e => decide (e.1 ≠ k))).find? (fun e => decide (e.1 = k1)) =
      l.find? (fun e => decide (e.1 = k1)) := by
  induction l with
  | nil => rfl
  | cons e l ih =>
    rw [List.filter_cons]
    by_cases he : e.1 = k
    · have h1 : ¬ e.1 = k1 := fun h2 => h (h2 ▸ he)
      have hd : decide (e.1 ≠ k) = false := by simp [he]
      have hd1 : decide (e.1 = k1) = false := by simp [h1]
      rw [hd, List.find?_cons, hd1]
      simpa using ih
    · have hd : decide (e.1 ≠ k) = true := by simp [he]
      rw [hd, if_pos rfl, List.find?_cons, List.find?_cons, ih]

theorem get_set (m : GoMap V) (k : Bytes) (v : V) (k1 : Bytes) :
    (m.set k v).get k1 = if k1 = k then some v else m.get k1 := by
  unfold get set
  by_cases h : k1 = k
  · subst h; simp [List.find?_cons]
  · have h1 : ¬ k = k1 := fun e => h e.symm
    simp only [List.find?_cons, h, h1, decide_False, if_false]
    rw [find_filter_ne _ _ _ h]

theorem mem_keys_set (m : GoMap V) (k : Bytes) (v : V) (k1 : Bytes) :
    k1 ∈ (m.set k v).keys ↔ k1 = k ∨ k1 ∈ m.keys := by
  unfold keys set
  simp only [List.map_cons, List.mem_cons, List.mem_map, List.mem_filter]
  constructor
  · rintro (h | ⟨e, ⟨he, _⟩, rfl⟩)
    · exact Or.inl h
    · exact Or.inr ⟨e, he, rfl⟩
  · rintro (h | ⟨e, he, rfl⟩)
    · exact Or.inl h
    · by_cases hk : e.1 = k
      · exact Or.inl hk
      · exact Or.inr ⟨e, ⟨he, by simpa using hk⟩, rfl⟩

theorem get_eq_none_iff (m : GoMap V) (k : Bytes) : m.get k = none ↔ k ∉ m.keys := by
  unfold get keys
  simp only [Option.map_eq_none', List.find?_eq_none, List.mem_map, decide_eq_true_eq]
  constructor
  · rintro h ⟨e, he, rfl⟩
    exact h e he rfl
  · intro h e he hk
    exact h ⟨e, he, hk⟩

theorem get_isSome_iff (m : GoMap V) (k : Bytes) : (m.get k).isSome ↔ k ∈ m.keys := by
  rw [← not_iff_not, ← get_eq_none_iff]
  cases m.get k <;> simp

theorem get_setAll (l : List (Bytes × V)) (hl : (l.map Prod.fst).Nodup) (m : GoMap V)
    (k : Bytes) :
    (m.setAll l).get k =
      match l.find? (fun e => decide (e.1 = k)) with
      | some e => some e.2
      | none => m.get k := by
  induction l generalizing m with
  | nil => rfl
  | cons e l ih =>
    rw [List.map_cons, List.nodup_cons] at hl
    have hstep : (m.setAll (e :: l)) = (m.set e.1 e.2).setAll l := rfl
    rw [hstep, ih hl.2, get_set]
    by_cases he : e.1 = k
    · have hnone : l.find? (fun e => decide (e.1 = k)) = none := by
        rw [List.find?_eq_none]
        intro x hx hxk
        exact hl.1 (List.mem_map.2 ⟨x, hx, by simpa [he] using hxk⟩)
      simp [List.find?_cons, he, hnone]
    · have he1 : ¬ k = e.1 := fun h => he h.symm
      simp [List.find?_cons, he, he1]

theorem mem_keys_setAll (l : List (Bytes × V)) (m : GoMap V) (k : Bytes) :
    k ∈ (m.setAll l).keys ↔ k ∈ m.keys ∨ k ∈ l.map Prod.fst := by
  induction l generalizing m with
  | nil => simp [setAll]
  | cons e l ih =>
    have hstep : (m.setAll (e :: l)) = (m.set e.1 e.2).setAll l := rfl
    rw [hstep, ih, mem_keys_set]
    simp only [List.map_cons, List.mem_cons]
    tauto

/-- Copying the entries of `s` into `m`: lookups prefer `s`. -/
theorem get_setAll_range (m s : GoMap V) (k : Bytes) :
    (m.setAll s.range).get k = if k ∈ s.keys then s.get k else m.get k := by
  unfold range
  rw [get_setAll _ s.nodup]
  by_cases hk : k ∈ s.keys
  · rw [if_pos hk]
    have h := (get_isSome_iff s k).2 hk
    unfold get at h ⊢
    cases hf : s.entries.find? (fun e => decide (e.1 = k)) with
    | none => rw [hf] at h; simp at h
    | some e => rfl
  · rw [if_neg hk]
    have h := (get_eq_none_iff s k).2 hk
    unfold get at h ⊢
    cases hf : s.entries.find? (fun e => decide (e.1 = k)) with
    | none => rfl
    | some e => rw [hf] at h; simp at h

end GoMap

/-! ## Facts about the merge -/

theorem foldl_class (l : List (Bytes × Bool)) (i : IAL) :
    l.foldl (fun (i : IAL) kc => { i with class_ := i.class_.set kc.1 kc.2 }) i =
      { i with class_ := i.class_.setAll l } := by
  induction l generalizing i with
  | nil => rfl
  | cons e l ih => rw [List.foldl_cons, ih]; rfl

theorem foldl_attr (l : List (Bytes × Bytes)) (i : IAL) :
    l.foldl (fun (i : IAL) ka => { i with attr := i.attr.set ka.1 ka.2 }) i =
      { i with attr := i.attr.setAll l } := by
  induction l generalizing i with
  | nil => rfl
  | cons e l ih => rw [List.foldl_cons, ih]; rfl

theorem add_some (T S : IAL) :
    IAL.add (some T) S =
      { id := if S.id ≠ [] then S.id else T.id,
        class_ := T.class_.setAll S.class_.range,
        attr := T.attr.setAll S.attr.range } := by
  unfold IAL.add
  simp only [foldl_class, foldl_attr]
  split <;> rfl

theorem add_id (T S : IAL) :
    (IAL.add (some T) S).id = if S.id ≠ [] then S.id else T.id := by
  rw [add_some]

theorem add_class_get (T S : IAL) (k : Bytes) :
    (IAL.add (some T) S).class_.get k =
      if k ∈ S.class_.keys then S.class_.get k else T.class_.get k := by
  rw [add_some]; exact GoMap.get_setAll_range _ _ _

theorem add_class_keys (T S : IAL) (k : Bytes) :
    k ∈ (IAL.add (some T) S).class_.keys ↔ k ∈ T.class_.keys ∨ k ∈ S.class_.keys := by
  rw [add_some]; exact GoMap.mem_keys_setAll _ _ _

theorem add_attr_get (T S : IAL) (k : Bytes) :
    (IAL.add (some T) S).attr.get k =
      if k ∈ S.attr.keys then S.attr.get k else T.attr.get k := by
  rw [add_some]; exact GoMap.get_setAll_range _ _ _

theorem add_attr_keys (T S : IAL) (k : Bytes) :
    k ∈ (IAL.add (some T) S).attr.keys ↔ k ∈ T.attr.keys ∨ k ∈ S.attr.keys := by
  rw [add_some]; exact GoMap.mem_keys_setAll _ _ _

theorem foldl_add_id (srcs : List IAL) (T : IAL) :
    (srcs.foldl (fun acc s => IAL.add (some acc) s) T).id = lastNonEmptyId T.id srcs := by
  induction srcs using List.reverseRecOn with
  | nil => rfl
  | append_singleton l s ih =>
    rw [List.foldl_append, List.foldl_cons, List.foldl_nil, add_id, ih]
    unfold lastNonEmptyId
    rw [List.reverse_append, List.reverse_singleton, List.singleton_append, List.find?_cons]
    by_cases hs : s.id = []
    · simp [hs]
    · simp [hs]

/-! ## Claims about the merge operator -/

/-- C8: merging into the absent target adopts the source; `add(nil, X)` is `X` itself, with
the same id, classes and attributes. -/
theorem add_nil_adopts (X : IAL) :
    IAL.add none X = X ∧ (IAL.add none X).id = X.id ∧
      (IAL.add none X).class_ = X.class_ ∧ (IAL.add none X).attr = X.attr :=
  ⟨rfl, rfl, rfl, rfl⟩

/-- C9: for a present target `T` and a source `S`, the merge `R = add(T, S)` has the id of
`S` when that is non-empty and the id of `T` otherwise; its classes are the union of the
classes of `T` and `S`; and its attribute lookup at any key `k` is that of `S` when `k` is a
key of `S` and that of `T` otherwise, `k` being a key of `R` exactly when it is a key of `T`
or of `S`. -/
theorem add_present_spec (T S : IAL) :
    (IAL.add (some T) S).id = (if S.id ≠ [] then S.id else T.id) ∧
      (∀ k, k ∈ (IAL.add (some T) S).class_.keys ↔ k ∈ T.class_.keys ∨ k ∈ S.class_.keys) ∧
      (∀ k, (IAL.add (some T) S).attr.get k =
        if k ∈ S.attr.keys then S.attr.get k else T.attr.get k) ∧
      (∀ k, k ∈ (IAL.add (some T) S).attr.keys ↔ k ∈ T.attr.keys ∨ k ∈ S.attr.keys) :=
  ⟨add_id T S, add_class_keys T S, add_attr_get T S, add_attr_keys T S⟩

/-- C10: merging is idempotent in its source, `add(add(T, S), S)` has the same id, the same
classes and the same attributes as `add(T, S)`; and after merging any sequence of sources
into `T` the id is that of the most recently merged source with a non-empty id, or the
original id of `T` when no source has one. -/
theorem add_idempotent_last_id (T S : IAL) (srcs : List IAL) :
    (IAL.add (some (IAL.add (some T) S)) S).id = (IAL.add (some T) S).id ∧
      (∀ k, k ∈ (IAL.add (some (IAL.add (some T) S)) S).class_.keys ↔
        k ∈ (IAL.add (some T) S).class_.keys) ∧
      (∀ k, (IAL.add (some (IAL.add (some T) S)) S).class_.get k =
        (IAL.add (some T) S).class_.get k) ∧
      (∀ k, k ∈ (IAL.add (some (IAL.add (some T) S)) S).attr.keys ↔
        k ∈ (IAL.add (some T) S).attr.keys) ∧
      (∀ k, (IAL.add (some (IAL.add (some T) S)) S).attr.get k =
        (IAL.add (some T) S).attr.get k) ∧
      (srcs.foldl (fun acc s => IAL.add (some acc) s) T).id = lastNonEmptyId T.id srcs := by
  refine ⟨?_, ?_, ?_, ?_, ?_, foldl_add_id srcs T⟩
  · rw [add_id, add_id]; split <;> simp_all
  · intro k; rw [add_class_keys, add_class_keys]; tauto
  · intro k; rw [add_class_get, add_class_get]; split <;> simp_all
  · intro k; rw [add_attr_keys, add_attr_keys]; tauto
  · intro k; rw [add_attr_get, add_attr_get]; split <;> simp_all

/-! ## Facts about the scanner -/

theorem reserved_iff (s : Bytes) : reserved s = true ↔ ReservedWord s := by
  simp [reserved, ReservedWord, or_assoc]

theorem slice_eq (data : Bytes) (lo hi : Nat) (h1 : lo ≤ hi) (h2 : hi ≤ data.length) :
    slice data lo hi = some ((data.drop lo).take (hi - lo)) := if_pos ⟨h1, h2⟩

theorem classify_some (ial : IAL) (chunk : Bytes) (h : chunk.length ≠ 0) :
    ∃ a, classify ial chunk = some a := by
  cases chunk with
  | nil => exact absurd rfl h
  | cons c tl =>
    unfold classify
    simp only
    split
    · exact ⟨_, rfl⟩
    · split
      · exact ⟨_, rfl⟩
      · split <;> exact ⟨_, rfl⟩

theorem scan_outcome (p : parser) (data : Bytes) :
    ∀ (rest : Bytes) (i : Nat) (esc quote : Bool) (ialB : Nat) (ial : IAL),
      i + rest.length = data.length → ialB < i →
      ∃ r, isIAL.scan p data rest i esc quote ialB ial = some r ∧
        Outcome p data (firstClose rest i esc) r := by
  intro rest
  induction rest with
  | nil =>
    intro i esc quote ialB ial _ _
    exact ⟨(0, p), rfl, rfl⟩
  | cons c rest ih =>
    intro i esc quote ialB ial hlen hB
    have hlen1 : i + 1 + rest.length = data.length := by
      rw [List.length_cons] at hlen; omega
    have hi : i ≤ data.length := by omega
    have hchunk := slice_eq data (ialB + 1) i hB hi
    unfold isIAL.scan firstClose
    by_cases h1 : c = ' '
    · subst h1
      simp only [if_true, escAfter]
      have hne : ¬ (' ' = '}' ∧ esc = false) := by simp
      rw [if_neg hne]
      have hbs : ¬ (' ' = '\\') := by decide
      simp only [hbs, if_false, if_true]
      cases quote with
      | true => exact ih _ _ _ _ _ hlen1 (by omega)
      | false =>
        simp only [Bool.false_eq_true, if_false, hchunk]
        split
        · exact ih _ _ _ _ _ hlen1 (by omega)
        · rename_i hne0
          obtain ⟨a, ha⟩ := classify_some ial _ hne0
          rw [ha]
          exact ih _ _ _ _ _ hlen1 (by omega)
    · rw [if_neg h1]
      by_cases h2 : c = '"'
      · subst h2
        have hne : ¬ ('"' = '}' ∧ esc = false) := by simp
        have hbs : ¬ ('"' = '\\') := by decide
        rw [if_neg hne]
        simp only [if_true, escAfter, hbs, h1, if_false]
        cases esc with
        | true => exact ih _ _ _ _ _ hlen1 (by omega)
        | false => exact ih _ _ _ _ _ hlen1 (by omega)
      · rw [if_neg h2]
        by_cases h3 : c = '\\'
        · subst h3
          have hne : ¬ ('\\' = '}' ∧ esc = false) := by simp
          rw [if_neg hne]
          simp only [if_true, escAfter]
          exact ih _ _ _ _ _ hlen1 (by omega)
        · rw [if_neg h3]
          by_cases h4 : c = '}'
          · subst h4
            simp only [if_true, true_and]
            cases esc with
            | true =>
              simp only [if_true, Bool.true_eq_false, if_false, escAfter, h3, h1, Bool.not_true]
              exact ih _ _ _ _ _ hlen1 (by omega)
            | false =>
              have hs := slice_eq data 1 i (by omega) hi
              simp only [Bool.false_eq_true, if_false, if_true, hs, hchunk]
              unfold Outcome between
              simp only
              split
              · exact ⟨_, rfl, rfl⟩
              · split
                · exact ⟨_, rfl, rfl, Or.inl rfl⟩
                · rename_i hne0
                  obtain ⟨a, ha⟩ := classify_some ial _ hne0
                  rw [ha]
                  exact ⟨_, rfl, rfl, Or.inr ⟨a, rfl⟩⟩
          · rw [if_neg h4]
            have hne : ¬ (c = '}' ∧ esc = false) := fun h => h4 h.1
            rw [if_neg hne]
            simp only [escAfter, h3, h1, if_false]
            exact ih _ _ _ _ _ hlen1 (by omega)

theorem isIAL_open (p : parser) (rest : Bytes) :
    isIAL p ('{' :: rest) = isIAL.scan p ('{' :: rest) rest 1 false false 0 newIAL := by
  simp [isIAL, isIAL.scan]

theorem firstClose_open (rest : Bytes) :
    firstClose ('{' :: rest) 0 false = firstClose rest 1 false := by
  simp [firstClose, escAfter]

theorem isIAL_outcome (p : parser) (data : Bytes) (h : data.head? = some '{') :
    ∃ r, isIAL p data = some r ∧ Outcome p data (firstClose data 0 false) r := by
  cases data with
  | nil => simp at h
  | cons c rest =>
    simp only [List.head?_cons, Option.some.injEq] at h
    subst h
    rw [isIAL_open, firstClose_open]
    exact scan_outcome p _ rest 1 false false 0 newIAL (by simp; omega) (by omega)

theorem escAt_append (pre rest : Bytes) :
    escAt (pre ++ rest) pre.length = pre.foldl escAfter false := by
  simp [escAt]

theorem not_unescapedClose_of_length_le (data : Bytes) (j : Nat) (h : data.length ≤ j) :
    ¬ UnescapedClose data j := by
  intro hu
  have h1 := hu.1
  rw [List.getElem?_eq_none h] at h1
  exact Option.noConfusion h1

theorem firstClose_spec :
    ∀ (rest pre : Bytes) (esc : Bool), esc = pre.foldl escAfter false →
      (∀ j1, j1 < pre.length → ¬ UnescapedClose (pre ++ rest) j1) →
      match firstClose rest pre.length esc with
      | none => ∀ j, ¬ UnescapedClose (pre ++ rest) j
      | some j => FirstUnescapedClose (pre ++ rest) j ∧ j < (pre ++ rest).length := by
  intro rest
  induction rest with
  | nil =>
    intro pre esc _ hpre
    simp only [firstClose]
    intro j
    by_cases hj : j < pre.length
    · exact hpre j hj
    · exact not_unescapedClose_of_length_le _ _ (by simp; omega)
  | cons c rest ih =>
    intro pre esc hesc hpre
    have hget : (pre ++ c :: rest)[pre.length]? = some c := by
      rw [List.getElem?_append_right (Nat.le_refl _), Nat.sub_self]; simp
    have hflag : escAt (pre ++ c :: rest) pre.length = esc := by
      rw [escAt_append, hesc]
    unfold firstClose
    by_cases hc : c = '}' ∧ esc = false
    · rw [if_pos hc]
      refine ⟨⟨⟨?_, ?_⟩, hpre⟩, by simp⟩
      · rw [hget, hc.1]
      · rw [hflag, hc.2]
    · rw [if_neg hc]
      have hassoc : pre ++ c :: rest = (pre ++ [c]) ++ rest := by simp
      have hlen : (pre ++ [c]).length = pre.length + 1 := by simp
      have hesc1 : escAfter esc c = (pre ++ [c]).foldl escAfter false := by
        rw [List.foldl_append, ← hesc]; rfl
      have hpre1 : ∀ j1, j1 < (pre ++ [c]).length → ¬ UnescapedClose ((pre ++ [c]) ++ rest) j1 := by
        intro j1 hj1
        rw [← hassoc]
        by_cases hlt : j1 < pre.length
        · exact hpre j1 hlt
        · have hj : j1 = pre.length := by omega
          subst hj
          intro hu
          apply hc
          have h1 := hu.1
          rw [hget] at h1
          exact ⟨Option.some.inj h1, hflag ▸ hu.2⟩
      have := ih (pre ++ [c]) (escAfter esc c) hesc1 hpre1
      rw [hlen, ← hassoc] at this
      exact this

theorem firstClose_data (data : Bytes) :
    match firstClose data 0 false with
    | none => ∀ j, ¬ UnescapedClose data j
    | some j => FirstUnescapedClose data j ∧ j < data.length := by
  have := firstClose_spec data [] false rfl (fun j1 hj1 => absurd hj1 (Nat.not_lt_zero _))
  simpa using this

theorem firstUnescapedClose_unique (data : Bytes) (j j1 : Nat)
    (h : FirstUnescapedClose data j) (h1 : FirstUnescapedClose data j1) : j = j1 := by
  rcases Nat.lt_trichotomy j j1 with hlt | heq | hgt
  · exact absurd h.1 (h1.2 j hlt)
  · exact heq
  · exact absurd h1.1 (h.2 j1 hgt)

theorem scan_skip (p : parser) (data : Bytes) (quote : Bool) :
    ∀ (t rest : Bytes) (i ialB : Nat) (ial : IAL),
      (∀ c ∈ t, c ≠ '"' ∧ c ≠ '\\' ∧ c ≠ '}' ∧ (c = ' ' → quote = true)) →
      isIAL.scan p data (t ++ rest) i false quote ialB ial =
        isIAL.scan p data rest (i + t.length) false quote ialB ial := by
  intro t
  induction t with
  | nil => intro rest i ialB ial _; rfl
  | cons c t ih =>
    intro rest i ialB ial h
    obtain ⟨h1, h2, h3, h4⟩ := h c (List.mem_cons_self c t)
    have ht : ∀ c ∈ t, c ≠ '"' ∧ c ≠ '\\' ∧ c ≠ '}' ∧ (c = ' ' → quote = true) :=
      fun c hc => h c (List.mem_cons_of_mem _ hc)
    have hlen : i + (c :: t).length = i + 1 + t.length := by
      rw [List.length_cons]; omega
    rw [List.cons_append, hlen, ← ih rest (i + 1) ialB ial ht]
    conv_lhs => unfold isIAL.scan
    by_cases hsp : c = ' '
    · rw [if_pos hsp, h4 hsp, if_pos rfl]
    · rw [if_neg hsp, if_neg h1, if_neg h2, if_neg h3]

theorem slice_mid (pre t post : Bytes) :
    slice (pre ++ (t ++ post)) pre.length (pre.length + t.length) = some t := by
  rw [slice_eq _ _ _ (Nat.le_add_right _ _) (by simp)]
  simp

theorem slice_one (data : Bytes) (i : Nat) (h1 : 1 ≤ i) (h2 : i ≤ data.length) :
    slice data 1 i = some (between data i) := slice_eq data 1 i h1 h2

theorem splitN2_spec (t : Bytes) :
    splitN2 t =
      if '=' ∈ t then
        [t.takeWhile (fun c => decide (c ≠ '=')),
          (t.dropWhile (fun c => decide (c ≠ '='))).drop 1]
      else [t] := by
  induction t with
  | nil => rfl
  | cons c cs ih =>
    unfold splitN2
    by_cases hc : c = '='
    · subst hc
      simp
    · have hc1 : ¬ '=' = c := fun h => hc h.symm
      rw [if_neg hc, ih]
      by_cases hm : '=' ∈ cs
      · simp [hm, hc, List.takeWhile_cons, List.dropWhile_cons]
      · simp [hm, hc, hc1]

theorem stripQuotes_of_not_mem (v : Bytes) (h : '"' ∉ v) : stripQuotes v = v := by
  unfold stripQuotes
  rw [List.filter_eq_self]
  intro c hc
  have : c ≠ '"' := fun e => h (e ▸ hc)
  simpa using this

theorem tokenEffect_cons (S : IAL) (c : Char) (x : Bytes) :
    tokenEffect S (c :: x) =
      if c = '.' then { S with class_ := S.class_.set x true }
      else if c = '#' then { S with id := x }
      else if '=' ∈ c :: x then
        IAL.mk S.id S.class_ (S.attr.set ((c :: x).takeWhile (fun c => decide (c ≠ '=')))
          (((c :: x).dropWhile (fun c => decide (c ≠ '='))).drop 1))
      else S := by
  by_cases h1 : c = '.'
  · subst h1; rfl
  · by_cases h2 : c = '#'
    · subst h2; rfl
    · rw [if_neg h1, if_neg h2]
      unfold tokenEffect
      split
      · rename_i heq
        exact absurd (List.cons.inj heq).1 h1
      · rename_i heq
        exact absurd (List.cons.inj heq).1 h2
      · rfl

theorem classify_plainToken (ial : IAL) (t : Bytes) (h : PlainToken t) :
    classify ial t = some (tokenEffect ial t) := by
  obtain ⟨hne, _, hq, _, _, hhead⟩ := h
  cases t with
  | nil => exact absurd rfl hne
  | cons c x =>
    rw [tokenEffect_cons]
    unfold classify
    simp only
    by_cases h1 : c = '.'
    · rw [if_pos h1, if_pos h1]
    · rw [if_neg h1, if_neg h1]
      by_cases h2 : c = '#'
      · rw [if_pos h2, if_pos h2]
      · rw [if_neg h2, if_neg h2]
        unfold parseKeyValue
        rw [splitN2_spec]
        by_cases hm : '=' ∈ c :: x
        · have hc : c ≠ '=' := fun e => hhead (by rw [e]; rfl)
          have hq1 : '"' ∉ ((c :: x).dropWhile (fun c => decide (c ≠ '='))).drop 1 :=
            fun hmem => hq ((List.dropWhile_sublist _).subset (List.mem_of_mem_drop hmem))
          have hk : (c :: x).takeWhile (fun c => decide (c ≠ '=')) ≠ [] := by
            rw [List.takeWhile_cons]
            simp [hc]
          simp only [if_pos hm, stripQuotes_of_not_mem _ hq1]
          rw [if_pos hk]
        · simp only [if_neg hm]
          rw [if_neg (by simp)]

theorem plainToken_skip (t : Bytes) (h : PlainToken t) :
    ∀ c ∈ t, c ≠ '"' ∧ c ≠ '\\' ∧ c ≠ '}' ∧ (c = ' ' → false = true) := by
  obtain ⟨_, hs, hq, hb, hc, _⟩ := h
  intro c hmem
  exact ⟨fun e => hq (e ▸ hmem), fun e => hb (e ▸ hmem), fun e => hc (e ▸ hmem),
    fun e => absurd (e ▸ hmem) hs⟩

theorem scan_close (p : parser) (data rest : Bytes) (i ialB : Nat) (ial : IAL) (s chunk : Bytes)
    (hs : slice data 1 i = some s) (hres : reserved s = false)
    (hchunk : slice data (ialB + 1) i = some chunk) (hne : chunk ≠ []) :
    isIAL.scan p data ('}' :: rest) i false false ialB ial =
      (classify ial chunk).map (fun ial1 => (i + 1, { ial := some (IAL.add p.ial ial1) })) := by
  have hlen : ¬ chunk.length = 0 := fun h => hne (List.length_eq_zero.1 h)
  unfold isIAL.scan
  simp only [Char.reduceEq, if_false, if_true, Bool.false_eq_true, hs, hres, hchunk, hlen]
  cases classify ial chunk <;> rfl

theorem scan_space (p : parser) (data rest : Bytes) (i ialB : Nat) (ial ial1 : IAL)
    (chunk : Bytes) (hchunk : slice data (ialB + 1) i = some chunk) (hne : chunk ≠ [])
    (hcl : classify ial chunk = some ial1) :
    isIAL.scan p data (' ' :: rest) i false false ialB ial =
      isIAL.scan p data rest (i + 1) false false i ial1 := by
  have hlen : ¬ chunk.length = 0 := fun h => hne (List.length_eq_zero.1 h)
  conv_lhs => unfold isIAL.scan
  simp only [if_true, Bool.false_eq_true, if_false, hchunk, hlen, hcl]

theorem scan_tokens (p : parser) (data : Bytes) :
    ∀ (ts : List Bytes), ts ≠ [] → (∀ t ∈ ts, PlainToken t) →
      ∀ (pre : Bytes) (ial : IAL), pre ≠ [] → data = pre ++ (joinSp ts ++ ['}']) →
        reserved (between data (data.length - 1)) = false →
        isIAL.scan p data (joinSp ts ++ ['}']) pre.length false false (pre.length - 1) ial =
          some (data.length, { ial := some (IAL.add p.ial (ts.foldl tokenEffect ial)) }) := by
  intro ts
  induction ts with
  | nil => intro h; exact absurd rfl h
  | cons t ts ih =>
    intro _ htok pre ial hpre hdata hres
    have ht : PlainToken t := htok t (List.mem_cons_self t ts)
    have hprelen : pre.length - 1 + 1 = pre.length := by
      have : 0 < pre.length := List.length_pos.2 hpre
      omega
    cases ts with
    | nil =>
      have hj : joinSp [t] = t := rfl
      rw [hj] at hdata ⊢
      rw [scan_skip p data false t _ _ _ _ (plainToken_skip t ht)]
      have hdl : data.length = pre.length + t.length + 1 := by
        rw [hdata]; simp; omega
      have hs : slice data 1 (pre.length + t.length) =
          some (between data (data.length - 1)) := by
        rw [hdl]
        exact slice_one _ _ (by have : 0 < pre.length := List.length_pos.2 hpre; omega)
          (by omega)
      have hchunk : slice data (pre.length - 1 + 1) (pre.length + t.length) = some t := by
        rw [hprelen, hdata]; exact slice_mid pre t _
      rw [scan_close p data [] _ _ ial _ t hs hres hchunk ht.1, classify_plainToken ial t ht,
        hdl]
      rfl
    | cons t1 ts1 =>
      have hj : joinSp (t :: t1 :: ts1) = t ++ ' ' :: joinSp (t1 :: ts1) := rfl
      rw [hj] at hdata ⊢
      rw [List.append_assoc, scan_skip p data false t _ _ _ _ (plainToken_skip t ht)]
      have hchunk : slice data (pre.length - 1 + 1) (pre.length + t.length) = some t := by
        rw [hprelen, hdata, List.append_assoc]; exact slice_mid pre t _
      rw [List.cons_append,
        scan_space p data _ _ _ ial _ t hchunk ht.1 (classify_plainToken ial t ht)]
      have hpre1 : (pre ++ t ++ [' ']).length = pre.length + t.length + 1 := by
        simp only [List.length_append, List.length_singleton]
      have := ih (List.cons_ne_nil _ _) (fun u hu => htok u (List.mem_cons_of_mem _ hu))
        (pre ++ t ++ [' ']) (tokenEffect ial t) (by simp)
        (by rw [hdata]; simp) hres
      rw [hpre1] at this
      exact this

theorem between_open (body : Bytes) :
    between ('{' :: (body ++ ['}'])) (('{' :: (body ++ ['}'])).length - 1) = body := by
  unfold between
  simp

theorem scan_quote (p : parser) (data rest : Bytes) (i ialB : Nat) (quote : Bool) (ial : IAL) :
    isIAL.scan p data ('"' :: rest) i false quote ialB ial =
      isIAL.scan p data rest (i + 1) false (!quote) ialB ial := by
  conv_lhs => unfold isIAL.scan
  simp only [Char.reduceEq, if_false, if_true, Bool.false_eq_true]

theorem splitN2_append (k w : Bytes) (hk : ∀ c ∈ k, c ≠ '=') :
    splitN2 (k ++ '=' :: w) = [k, w] := by
  induction k with
  | nil => simp [splitN2]
  | cons c k ih =>
    have hc : c ≠ '=' := hk c (List.mem_cons_self c k)
    rw [List.cons_append]
    unfold splitN2
    rw [if_neg hc, ih (fun d hd => hk d (List.mem_cons_of_mem _ hd))]

theorem parseKeyValue_append (k w : Bytes) (hk : ∀ c ∈ k, c ≠ '=') :
    parseKeyValue (k ++ '=' :: w) = (k, stripQuotes w) := by
  unfold parseKeyValue
  rw [splitN2_append k w hk]

theorem classify_keyValue (ial : IAL) (k w : Bytes) (hne : k ≠ []) (hk : ∀ c ∈ k, c ≠ '=')
    (h1 : k.head? ≠ some '.') (h2 : k.head? ≠ some '#') :
    classify ial (k ++ '=' :: w) = some { ial with attr := ial.attr.set k (stripQuotes w) } := by
  cases k with
  | nil => exact absurd rfl hne
  | cons c x =>
    have hc1 : c ≠ '.' := fun e => h1 (by rw [e]; rfl)
    have hc2 : c ≠ '#' := fun e => h2 (by rw [e]; rfl)
    have hkv := parseKeyValue_append (c :: x) w hk
    rw [List.cons_append] at hkv ⊢
    unfold classify
    simp only [if_neg hc1, if_neg hc2, hkv]
    rw [if_pos (List.cons_ne_nil c x)]

theorem reserved_no_quote (s : Bytes) (h : '"' ∈ s) : reserved s = false := by
  cases hb : reserved s with
  | false => rfl
  | true =>
    exfalso
    rcases (reserved_iff s).1 hb with e | e | e <;> subst e <;> revert h <;> decide

theorem stripQuotes_wrapped (v : Bytes) (hv : '"' ∉ v) :
    stripQuotes ('"' :: (v ++ ['"'])) = v := by
  have h := stripQuotes_of_not_mem v hv
  unfold stripQuotes at h ⊢
  rw [List.filter_cons, List.filter_append, h]
  simp

/-! ## Claims about the tokens the scanner accepts -/

/-- C2: for every non-empty list of tokens, each non-empty, none containing a space, double
quote, backslash or closing brace, none beginning with `=`, whose single-space join is not a
reserved word, `isIAL` on the join put between braces returns the full input length, and the
aggregate afterwards is `add(previous aggregate, S)`, where `S` is built from the empty set
by applying the tokens left to right (`.x` adds class `x`, `#x` sets the id, a token with
`=` sets the attribute before the first `=` to the text after it, any other token does
nothing). -/
theorem isIAL_tokens (p : parser) (ts : List Bytes) (hne : ts ≠ [])
    (htok : ∀ t ∈ ts, PlainToken t) (hres : ¬ ReservedWord (joinSp ts)) :
    isIAL p ('{' :: (joinSp ts ++ ['}'])) =
      some (('{' :: (joinSp ts ++ ['}'])).length,
        { ial := some (IAL.add p.ial (ts.foldl tokenEffect newIAL)) }) := by
  rw [isIAL_open]
  have hr : reserved (between ('{' :: (joinSp ts ++ ['}']))
      (('{' :: (joinSp ts ++ ['}'])).length - 1)) = false := by
    rw [between_open]
    cases hb : reserved (joinSp ts) with
    | false => rfl
    | true => exact absurd ((reserved_iff _).1 hb) hres
  exact scan_tokens p _ ts hne htok ['{'] newIAL (by simp) rfl hr

/-- C2 at the tokens `.a`, `#b`, `k=v=w`, `junk` with a previous aggregate of id `old`. -/
theorem isIAL_tokens_witness :
    ([".a".toList, "#b".toList, "k=v=w".toList, "junk".toList] ≠ [] ∧
      (∀ t ∈ [".a".toList, "#b".toList, "k=v=w".toList, "junk".toList], PlainToken t) ∧
      ¬ ReservedWord (joinSp [".a".toList, "#b".toList, "k=v=w".toList, "junk".toList])) ∧
    isIAL ⟨some ⟨"old".toList, GoMap.empty, GoMap.empty⟩⟩
        ('{' :: (joinSp [".a".toList, "#b".toList, "k=v=w".toList, "junk".toList] ++ ['}'])) =
      some (('{' ::
          (joinSp [".a".toList, "#b".toList, "k=v=w".toList, "junk".toList] ++ ['}'])).length,
        { ial := some (IAL.add (some ⟨"old".toList, GoMap.empty, GoMap.empty⟩)
            ([".a".toList, "#b".toList, "k=v=w".toList, "junk".toList].foldl
              tokenEffect newIAL)) }) :=
  ⟨⟨by decide, by decide, by decide⟩,
    isIAL_tokens ⟨some ⟨"old".toList, GoMap.empty, GoMap.empty⟩⟩
      [".a".toList, "#b".toList, "k=v=w".toList, "junk".toList] (by decide) (by decide)
      (by decide)⟩

/-- C4: spaces inside a double-quoted value do not separate tokens.  For every non-empty
key `k` without space, quote, backslash, closing brace or `=`, not beginning with `.` or
`#`, and every value `v` without quote, backslash or closing brace (spaces allowed),
`isIAL` on `{k="v"}` returns the full input length, and the aggregate afterwards is the
previous one merged with the set whose only attribute is `k` with value `v`; in it the
attribute `k` is `v`, internal spaces preserved. -/
theorem isIAL_quoted_value (p : parser) (k v : Bytes) (hne : k ≠ [])
    (hk : ∀ c ∈ k, c ≠ ' ' ∧ c ≠ '"' ∧ c ≠ '\\' ∧ c ≠ '}' ∧ c ≠ '=')
    (h1 : k.head? ≠ some '.') (h2 : k.head? ≠ some '#')
    (hv : ∀ c ∈ v, c ≠ '"' ∧ c ≠ '\\' ∧ c ≠ '}') :
    isIAL p ('{' :: (k ++ ('=' :: '"' :: (v ++ ['"', '}'])))) =
        some (('{' :: (k ++ ('=' :: '"' :: (v ++ ['"', '}'])))).length,
          { ial := some (IAL.add p.ial (IAL.mk [] GoMap.empty (GoMap.empty.set k v))) }) ∧
      (IAL.add p.ial (IAL.mk [] GoMap.empty (GoMap.empty.set k v))).attr.get k = some v := by
  constructor
  · have hbody : '{' :: (k ++ ('=' :: '"' :: (v ++ ['"', '}']))) =
        ['{'] ++ ((k ++ '=' :: ('"' :: (v ++ ['"']))) ++ ['}']) := by simp
    have hskipk : ∀ c ∈ k ++ ['='], c ≠ '"' ∧ c ≠ '\\' ∧ c ≠ '}' ∧ (c = ' ' → false = true) := by
      intro c hc
      rcases List.mem_append.1 hc with hc | hc
      · obtain ⟨a1, a2, a3, a4, _⟩ := hk c hc
        exact ⟨a2, a3, a4, fun e => absurd e a1⟩
      · rw [List.mem_singleton] at hc
        subst hc
        exact ⟨by decide, by decide, by decide, by decide⟩
    have hskipv : ∀ c ∈ v, c ≠ '"' ∧ c ≠ '\\' ∧ c ≠ '}' ∧ (c = ' ' → true = true) :=
      fun c hc => ⟨(hv c hc).1, (hv c hc).2.1, (hv c hc).2.2, fun _ => rfl⟩
    have hsplit : k ++ ('=' :: '"' :: (v ++ ['"', '}'])) =
        (k ++ ['=']) ++ ('"' :: (v ++ ['"', '}'])) := by simp
    have hvq : '"' ∉ v := fun hm => (hv _ hm).1 rfl
    have hidx : 1 + (k ++ ['=']).length + 1 + v.length + 1 =
        ['{'].length + (k ++ '=' :: ('"' :: (v ++ ['"']))).length := by
      simp only [List.length_append, List.length_cons, List.length_singleton, List.length_nil]
      omega
    have hlen : ('{' :: (k ++ ('=' :: '"' :: (v ++ ['"', '}'])))).length =
        1 + (k ++ ['=']).length + 1 + v.length + 1 + 1 := by
      simp only [List.length_append, List.length_cons, List.length_singleton, List.length_nil]
      omega
    have hs : slice ('{' :: (k ++ ('=' :: '"' :: (v ++ ['"', '}']))))
        (0 + 1) (1 + (k ++ ['=']).length + 1 + v.length + 1) =
        some (k ++ '=' :: ('"' :: (v ++ ['"']))) := by
      rw [hidx, hbody]
      exact slice_mid ['{'] _ ['}']
    rw [isIAL_open, hlen]
    generalize hd : '{' :: (k ++ ('=' :: '"' :: (v ++ ['"', '}']))) = data at hs ⊢
    rw [hsplit, scan_skip p data false _ _ _ _ _ hskipk, scan_quote, Bool.not_false,
      scan_skip p data true v _ _ _ _ hskipv, scan_quote, Bool.not_true,
      scan_close p data [] _ 0 newIAL _ _ hs (reserved_no_quote _ (by simp)) hs (by simp),
      classify_keyValue newIAL k _ hne (fun c hc => (hk c hc).2.2.2.2) h1 h2,
      stripQuotes_wrapped v hvq]
    rfl
  · cases hp : p.ial with
    | none =>
      show (GoMap.empty.set k v).get k = some v
      rw [GoMap.get_set, if_pos rfl]
    | some T =>
      rw [add_attr_get]
      have hmem : k ∈ (GoMap.empty.set k v : GoMap Bytes).keys :=
        (GoMap.mem_keys_set _ _ _ _).2 (Or.inl rfl)
      rw [if_pos hmem, GoMap.get_set, if_pos rfl]

/-- C4 at the key `title` and the value `Hello World`, with a previous aggregate in which
`title` is `Old`. -/
theorem isIAL_quoted_value_witness :
    isIAL ⟨some ⟨[], GoMap.empty, GoMap.empty.set "title".toList "Old".toList⟩⟩
        ('{' :: ("title".toList ++ ('=' :: '"' :: ("Hello World".toList ++ ['"', '}'])))) =
        some (('{' ::
            ("title".toList ++ ('=' :: '"' :: ("Hello World".toList ++ ['"', '}'])))).length,
          { ial := some (IAL.add
              (some ⟨[], GoMap.empty, GoMap.empty.set "title".toList "Old".toList⟩)
              (IAL.mk [] GoMap.empty
                (GoMap.empty.set "title".toList "Hello World".toList))) }) ∧
      (IAL.add (some ⟨[], GoMap.empty, GoMap.empty.set "title".toList "Old".toList⟩)
        (IAL.mk [] GoMap.empty
          (GoMap.empty.set "title".toList "Hello World".toList))).attr.get "title".toList =
        some "Hello World".toList :=
  isIAL_quoted_value ⟨some ⟨[], GoMap.empty, GoMap.empty.set "title".toList "Old".toList⟩⟩
    "title".toList "Hello World".toList (by decide) (by decide) (by decide) (by decide)
    (by decide)

/-! ## Claims about the scanner's result -/

/-- C5: on an input whose first byte is the opening brace, `isIAL` returns, and when it
returns 0 the running aggregate `p.ial` of the host is exactly what it was before the call
(absent if it was absent). -/
theorem isIAL_zero_keeps_aggregate (p : parser) (data : Bytes)
    (h : data.head? = some '{') :
    ∃ n p1, isIAL p data = some (n, p1) ∧ (n = 0 → p1 = p) := by
  obtain ⟨r, hr, ho⟩ := isIAL_outcome p data h
  refine ⟨r.1, r.2, hr, ?_⟩
  intro hn
  unfold Outcome at ho
  split at ho
  · rw [ho]
  · split at ho
    · rw [ho]
    · omega

/-- C5 at the input `{mainmatter}` with a previous aggregate of id `x`. -/
theorem isIAL_zero_keeps_aggregate_witness :
    "\x7bmainmatter\x7d".toList.head? = some '{' ∧
      ∃ n p1, isIAL ⟨some ⟨"x".toList, GoMap.empty, GoMap.empty⟩⟩ "\x7bmainmatter\x7d".toList
          = some (n, p1) ∧
        (n = 0 → p1 = ⟨some ⟨"x".toList, GoMap.empty, GoMap.empty⟩⟩) :=
  ⟨by decide, isIAL_zero_keeps_aggregate _ _ (by decide)⟩

/-- C6: on an input whose first byte is the opening brace, `isIAL` returns, and it returns 0
exactly when either the input has no unescaped closing brace, or the bytes strictly between
the opening brace and the first unescaped closing brace are one of the reserved words
`frontmatter`, `mainmatter`, `backmatter`. -/
theorem isIAL_zero_iff (p : parser) (data : Bytes) (h : data.head? = some '{') :
    ∃ n p1, isIAL p data = some (n, p1) ∧
      (n = 0 ↔ ((∀ j, ¬ UnescapedClose data j) ∨
        ∃ j, FirstUnescapedClose data j ∧ ReservedWord (between data j))) := by
  obtain ⟨r, hr, ho⟩ := isIAL_outcome p data h
  refine ⟨r.1, r.2, hr, ?_⟩
  have hf := firstClose_data data
  unfold Outcome at ho
  split at ho
  · rename_i hnone
    rw [hnone] at hf
    rw [ho]
    exact ⟨fun _ => Or.inl hf, fun _ => rfl⟩
  · rename_i j hsome
    rw [hsome] at hf
    split at ho
    · rename_i hres
      rw [ho]
      exact ⟨fun _ => Or.inr ⟨j, hf.1, (reserved_iff _).1 hres⟩, fun _ => rfl⟩
    · rename_i hres
      constructor
      · intro h0; omega
      · rintro (hno | ⟨j1, hj1, hw⟩)
        · exact absurd hf.1.1 (hno j)
        · have := firstUnescapedClose_unique data j j1 hf.1 hj1
          subst this
          exact absurd ((reserved_iff _).2 hw) hres

/-- C6 at the unterminated input `{.a key=b`. -/
theorem isIAL_zero_iff_witness :
    "\x7b.a key=b".toList.head? = some '{' ∧
      ∃ n p1, isIAL ⟨none⟩ "\x7b.a key=b".toList = some (n, p1) ∧
        (n = 0 ↔ ((∀ j, ¬ UnescapedClose "\x7b.a key=b".toList j) ∨
          ∃ j, FirstUnescapedClose "\x7b.a key=b".toList j ∧
            ReservedWord (between "\x7b.a key=b".toList j))) :=
  ⟨by decide, isIAL_zero_iff _ _ (by decide)⟩

/-- C7: on an input whose first byte is the opening brace, a positive result `n` of `isIAL`
satisfies `2 ≤ n ≤ len(data)`, the byte at index `n-1` is the closing brace, and `n-1` is
the index of the first unescaped closing brace (no earlier closing brace is reached with the
escape flag clear). -/
theorem isIAL_positive_spec (p : parser) (data : Bytes) (n : Nat) (p1 : parser)
    (h : data.head? = some '{') (hr : isIAL p data = some (n, p1)) (hn : 0 < n) :
    2 ≤ n ∧ n ≤ data.length ∧ data[n - 1]? = some '}' ∧ FirstUnescapedClose data (n - 1) := by
  obtain ⟨r, hr1, ho⟩ := isIAL_outcome p data h
  rw [hr] at hr1
  have hr2 : r = (n, p1) := (Option.some.inj hr1).symm
  subst hr2
  have hf := firstClose_data data
  unfold Outcome at ho
  split at ho
  · have : n = 0 := congrArg Prod.fst ho
    omega
  · rename_i j hsome
    rw [hsome] at hf
    split at ho
    · have : n = 0 := congrArg Prod.fst ho
      omega
    · have hnj : n = j + 1 := ho.1
      subst hnj
      have hj0 : j ≠ 0 := by
        intro h0
        subst h0
        have h1 := hf.1.1.1
        cases data with
        | nil => simp at h
        | cons c rest =>
          simp only [List.head?_cons, Option.some.injEq] at h
          subst h
          simp at h1
      refine ⟨by omega, by omega, ?_, ?_⟩
      · simpa using hf.1.1.1
      · simpa using hf.1

/-- C7 at the input `{.a\} b} c}`, whose first closing brace is escaped: the result is 8. -/
theorem isIAL_positive_spec_witness :
    "\x7b.a\\\x7d b\x7d c\x7d".toList.head? = some '{' ∧
      isIAL ⟨none⟩ "\x7b.a\\\x7d b\x7d c\x7d".toList =
        some (8, ⟨some ⟨[], GoMap.empty.set "a\\\x7d".toList true, GoMap.empty⟩⟩) ∧
      (2 ≤ 8 ∧ 8 ≤ "\x7b.a\\\x7d b\x7d c\x7d".toList.length ∧
        "\x7b.a\\\x7d b\x7d c\x7d".toList[8 - 1]? = some '}' ∧
        FirstUnescapedClose "\x7b.a\\\x7d b\x7d c\x7d".toList (8 - 1)) :=
  ⟨by decide, by decide,
    isIAL_positive_spec ⟨none⟩ "\x7b.a\\\x7d b\x7d c\x7d".toList 8
      ⟨some ⟨[], GoMap.empty.set "a\\\x7d".toList true, GoMap.empty⟩⟩
      (by decide) (by decide) (by decide)⟩

/-! ## Claims about what the scanner folds into the aggregate -/

/-- C1: the claim that every positive result comes with the scanned set folded into the
aggregate, evaluated where the final token is empty: on `{.a }` with no previous aggregate
`isIAL` returns 5 and leaves the aggregate absent, so the class `a` classified at the space
is lost, and on `{}` it returns 2 and leaves the aggregate absent; on `{.a}` (no trailing
space) it returns 4 with the class `a` in the aggregate. -/
theorem isIAL_empty_final_token_not_folded :
    isIAL ⟨none⟩ "\x7b.a \x7d".toList = some (5, ⟨none⟩) ∧
      isIAL ⟨none⟩ "\x7b\x7d".toList = some (2, ⟨none⟩) ∧
      isIAL ⟨none⟩ "\x7b.a\x7d".toList =
        some (4, ⟨some ⟨[], GoMap.empty.set "a".toList true, GoMap.empty⟩⟩) := by
  decide

/-- C3: on the input `{#id .c1 .c2 key="v"}` with no previous aggregate, `isIAL` returns the
full input length 21 and the resulting attribute set has id `id`, classes exactly `c1` and
`c2`, and attributes exactly `key` with value `v`. -/
theorem isIAL_example :
    "\x7b#id .c1 .c2 key=\"v\"\x7d".toList.length = 21 ∧
      ∃ a, isIAL ⟨none⟩ "\x7b#id .c1 .c2 key=\"v\"\x7d".toList = some (21, ⟨some a⟩) ∧
        a.id = "id".toList ∧
        (∀ k, k ∈ a.class_.keys ↔ k = "c1".toList ∨ k = "c2".toList) ∧
        (∀ k, a.attr.get k = if k = "key".toList then some "v".toList else none) := by
  refine ⟨by decide, ⟨"id".toList, (GoMap.empty.set "c1".toList true).set "c2".toList true,
    GoMap.empty.set "key".toList "v".toList⟩, by decide, rfl, ?_, ?_⟩
  · intro k
    simp only [GoMap.mem_keys_set, GoMap.keys_empty, List.not_mem_nil, or_false]
    exact or_comm
  · intro k
    simp only [GoMap.get_set, GoMap.get_empty]

/-! ## Facts about the string order and sorting -/

theorem char_eq_of_toNat_eq (a b : Char) (h : a.toNat = b.toNat) : a = b := by
  rw [← Char.ofNat_toNat a, ← Char.ofNat_toNat b, h]

theorem strLe_cons (a b : Char) (as bs : Bytes) :
    strLe (a :: as) (b :: bs) =
      if a.toNat < b.toNat then true else if b.toNat < a.toNat then false else strLe as bs :=
  rfl

theorem strLe_total (a b : Bytes) : strLe a b = true ∨ strLe b a = true := by
  induction a generalizing b with
  | nil => exact Or.inl rfl
  | cons x xs ih =>
    cases b with
    | nil => exact Or.inr rfl
    | cons y ys =>
      rw [strLe_cons, strLe_cons]
      by_cases h1 : x.toNat < y.toNat
      · exact Or.inl (by rw [if_pos h1])
      · by_cases h2 : y.toNat < x.toNat
        · exact Or.inr (by rw [if_pos h2])
        · rw [if_neg h1, if_neg h2, if_neg h2, if_neg h1]
          exact ih ys

theorem strLe_trans (a b c : Bytes) (h1 : strLe a b = true) (h2 : strLe b c = true) :
    strLe a c = true := by
  induction a generalizing b c with
  | nil => rfl
  | cons x xs ih =>
    cases b with
    | nil => exact absurd h1 (by simp [strLe])
    | cons y ys =>
      cases c with
      | nil => exact absurd h2 (by simp [strLe])
      | cons z zs =>
        rw [strLe_cons] at h1 h2 ⊢
        by_cases hxy : x.toNat < y.toNat
        · by_cases hyz : y.toNat < z.toNat
          · rw [if_pos (by omega)]
          · by_cases hzy : z.toNat < y.toNat
            · rw [if_neg hyz, if_pos hzy] at h2
              exact absurd h2 (by simp)
            · rw [if_pos (by omega)]
        · by_cases hyx : y.toNat < x.toNat
          · rw [if_neg hxy, if_pos hyx] at h1
            exact absurd h1 (by simp)
          · rw [if_neg hxy, if_neg hyx] at h1
            by_cases hyz : y.toNat < z.toNat
            · rw [if_pos (by omega)]
            · by_cases hzy : z.toNat < y.toNat
              · rw [if_neg hyz, if_pos hzy] at h2
                exact absurd h2 (by simp)
              · rw [if_neg hyz, if_neg hzy] at h2
                rw [if_neg (by omega), if_neg (by omega)]
                exact ih ys zs h1 h2

theorem strLe_antisymm (a b : Bytes) (h1 : strLe a b = true) (h2 : strLe b a = true) :
    a = b := by
  induction a generalizing b with
  | nil =>
    cases b with
    | nil => rfl
    | cons y ys => exact absurd h2 (by simp [strLe])
  | cons x xs ih =>
    cases b with
    | nil => exact absurd h1 (by simp [strLe])
    | cons y ys =>
      rw [strLe_cons] at h1 h2
      by_cases hxy : x.toNat < y.toNat
      · rw [if_neg (by omega), if_pos hxy] at h2
        exact absurd h2 (by simp)
      · by_cases hyx : y.toNat < x.toNat
        · rw [if_neg hxy, if_pos hyx] at h1
          exact absurd h1 (by simp)
        · rw [if_neg hxy, if_neg hyx] at h1
          rw [if_neg hyx, if_neg hxy] at h2
          rw [char_eq_of_toNat_eq x y (by omega), ih ys h1 h2]

instance : IsTotal Bytes StrLe := ⟨strLe_total⟩

instance : IsTrans Bytes StrLe := ⟨strLe_trans⟩

instance : IsAntisymm Bytes StrLe := ⟨strLe_antisymm⟩

theorem sortStrings_sorted (l : List Bytes) : List.Sorted StrLe (sortStrings l) :=
  List.sorted_insertionSort StrLe l

theorem sortStrings_perm (l : List Bytes) : List.Perm (sortStrings l) l :=
  List.perm_insertionSort StrLe l

theorem sortStrings_eq_of_perm (l1 l2 : List Bytes) (h : List.Perm l1 l2) :
    sortStrings l1 = sortStrings l2 :=
  List.eq_of_perm_of_sorted
    (((sortStrings_perm l1).trans h).trans (sortStrings_perm l2).symm)
    (sortStrings_sorted l1) (sortStrings_sorted l2)

theorem sortStrings_eq_of_mem_iff (l1 l2 : List Bytes) (h1 : l1.Nodup) (h2 : l2.Nodup)
    (h : ∀ k, k ∈ l1 ↔ k ∈ l2) : sortStrings l1 = sortStrings l2 :=
  sortStrings_eq_of_perm l1 l2 ((List.perm_ext_iff_of_nodup h1 h2).2 h)

theorem sortStrings_length (l : List Bytes) : (sortStrings l).length = l.length :=
  (sortStrings_perm l).length_eq

theorem stringsJoin_space (l : List Bytes) : stringsJoin l " ".toList = joinSp l := by
  induction l with
  | nil => rfl
  | cons e es ih =>
    cases es with
    | nil => rfl
    | cons e1 es1 =>
      show e ++ " ".toList ++ stringsJoin (e1 :: es1) " ".toList = e ++ ' ' :: joinSp (e1 :: es1)
      rw [ih]
      simp

/-! ## Facts about deletion and rendering -/

theorem GoMap.ext_entries {V : Type} (m1 m2 : GoMap V) (h : m1.entries = m2.entries) :
    m1 = m2 := by
  cases m1; cases m2; simp only [GoMap.mk.injEq]; exact h

theorem GoMap.get_delete {V : Type} (m : GoMap V) (k k1 : Bytes) :
    (m.delete k).get k1 = if k1 = k then none else m.get k1 := by
  unfold GoMap.get GoMap.delete
  by_cases h : k1 = k
  · subst h
    rw [if_pos rfl]
    simp only [Option.map_eq_none', List.find?_eq_none, List.mem_filter]
    intro e he
    simpa using he.2
  · rw [if_neg h, GoMap.find_filter_ne _ _ _ h]

theorem GoMap.mem_keys_delete {V : Type} (m : GoMap V) (k k1 : Bytes) :
    k1 ∈ (m.delete k).keys ↔ k1 ≠ k ∧ k1 ∈ m.keys := by
  unfold GoMap.keys GoMap.delete
  simp only [List.mem_map, List.mem_filter]
  constructor
  · rintro ⟨e, ⟨he, hne⟩, rfl⟩
    exact ⟨by simpa using hne, e, he, rfl⟩
  · rintro ⟨hne, e, he, rfl⟩
    exact ⟨e, ⟨he, by simpa using hne⟩, rfl⟩

theorem GoMap.delete_of_not_mem {V : Type} (m : GoMap V) (k : Bytes) (h : k ∉ m.keys) :
    m.delete k = m := by
  apply GoMap.ext_entries
  unfold GoMap.delete
  simp only
  rw [List.filter_eq_self]
  intro e he
  have : e.1 ≠ k := fun hk => h (List.mem_map.2 ⟨e, he, hk⟩)
  simpa using this

theorem GoMap.index_of_get {m : GoMap Bytes} {k v : Bytes} (h : m.get k = some v) :
    m.index k = v := by
  unfold GoMap.index; rw [h]; rfl

theorem GoMap.index_of_get_none {m : GoMap Bytes} {k : Bytes} (h : m.get k = none) :
    m.index k = [] := by
  unfold GoMap.index; rw [h]; rfl

/-- The rendering of a present attribute set, group by group. -/
theorem String_some (a : IAL) :
    IAL.String (some a) =
      (if a.id ≠ [] then " anchor=\"".toList ++ a.id ++ "\"".toList else []) ++
      (if a.class_.keys ≠ [] then
        " class=\"".toList ++ joinSp (sortStrings a.class_.keys) ++ "\"".toList else []) ++
      (if a.attr.keys ≠ [] then
        ' ' :: joinSp ((sortStrings a.attr.keys).map
          (fun k => k ++ "=\"".toList ++ a.attr.index k ++ "\"".toList)) else []) := by
  have hc : (sortStrings a.class_.keys).length > 0 ↔ a.class_.keys ≠ [] := by
    rw [sortStrings_length]; exact List.length_pos
  have ha : (sortStrings a.attr.keys).length > 0 ↔ a.attr.keys ≠ [] := by
    rw [sortStrings_length]; exact List.length_pos
  show (if (sortStrings a.attr.keys).length > 0 then
      (if (sortStrings a.class_.keys).length > 0 then
        (if a.id ≠ [] then " anchor=\"".toList ++ a.id ++ "\"".toList else []) ++
          (" class=\"".toList ++ stringsJoin (sortStrings a.class_.keys) " ".toList ++
            "\"".toList)
      else (if a.id ≠ [] then " anchor=\"".toList ++ a.id ++ "\"".toList else [])) ++
        (" ".toList ++ stringsJoin ((sortStrings a.attr.keys).map
          (fun k => k ++ "=\"".toList ++ a.attr.index k ++ "\"".toList)) " ".toList)
    else
      (if (sortStrings a.class_.keys).length > 0 then
        (if a.id ≠ [] then " anchor=\"".toList ++ a.id ++ "\"".toList else []) ++
          (" class=\"".toList ++ stringsJoin (sortStrings a.class_.keys) " ".toList ++
            "\"".toList)
      else (if a.id ≠ [] then " anchor=\"".toList ++ a.id ++ "\"".toList else []))) = _
  rw [stringsJoin_space, stringsJoin_space]
  by_cases h1 : a.class_.keys ≠ []
  · by_cases h2 : a.attr.keys ≠ []
    · rw [if_pos (ha.2 h2), if_pos (hc.2 h1), if_pos h1, if_pos h2]; rfl
    · rw [if_neg (fun h => h2 (ha.1 h)), if_pos (hc.2 h1), if_pos h1, if_neg h2,
        List.append_nil]
  · by_cases h2 : a.attr.keys ≠ []
    · rw [if_pos (ha.2 h2), if_neg (fun h => h1 (hc.1 h)), if_neg h1, if_pos h2,
        List.append_nil]; rfl
    · rw [if_neg (fun h => h2 (ha.1 h)), if_neg (fun h => h1 (hc.1 h)), if_neg h1, if_neg h2,
        List.append_nil, List.append_nil]

theorem GoMap.get_of_mem_keys {V : Type} (m : GoMap V) (k : Bytes) (h : k ∈ m.keys) :
    ∃ v, m.get k = some v :=
  Option.isSome_iff_exists.1 ((GoMap.get_isSome_iff m k).2 h)

theorem GoMap.mem_keys_iff_of_get_eq {V : Type} (m1 m2 : GoMap V)
    (h : ∀ k, m1.get k = m2.get k) (k : Bytes) : k ∈ m1.keys ↔ k ∈ m2.keys := by
  rw [← GoMap.get_isSome_iff, ← GoMap.get_isSome_iff, h]

theorem add_newIAL (T : IAL) : IAL.add (some T) newIAL = T := rfl

/-! ## Claims about the renderer -/

/-- C11: for every present attribute set, `String()` is the concatenation, in this order,
of ` anchor="<id>"` when the id is non-empty; ` class="<c1> <c2> ..."` with the class names
in ascending order joined by single spaces, when there are classes; and, when there are
attributes, a space followed by the entries `key="value"` in ascending order of key joined
by single spaces.  Nothing else is emitted. -/
theorem String_shape (a : IAL) :
    ∃ (cs : List Bytes) (es : List (Bytes × Bytes)),
      List.Perm cs a.class_.keys ∧ List.Sorted StrLe cs ∧
      List.Perm (es.map Prod.fst) a.attr.keys ∧ List.Sorted StrLe (es.map Prod.fst) ∧
      (∀ e ∈ es, a.attr.get e.1 = some e.2) ∧
      IAL.String (some a) =
        (if a.id ≠ [] then " anchor=\"".toList ++ a.id ++ "\"".toList else []) ++
        (if a.class_.keys ≠ [] then " class=\"".toList ++ joinSp cs ++ "\"".toList else []) ++
        (if a.attr.keys ≠ [] then
          ' ' :: joinSp (es.map (fun e => e.1 ++ "=\"".toList ++ e.2 ++ "\"".toList))
        else []) := by
  refine ⟨sortStrings a.class_.keys,
    (sortStrings a.attr.keys).map (fun k => (k, a.attr.index k)),
    sortStrings_perm _, sortStrings_sorted _, ?_, ?_, ?_, ?_⟩
  · rw [List.map_map]
    have : (Prod.fst ∘ fun k => (k, a.attr.index k)) = (fun k : Bytes => k) := rfl
    rw [this, List.map_id']
    exact sortStrings_perm _
  · rw [List.map_map]
    have : (Prod.fst ∘ fun k => (k, a.attr.index k)) = (fun k : Bytes => k) := rfl
    rw [this, List.map_id']
    exact sortStrings_sorted _
  · intro e he
    obtain ⟨k, hk, rfl⟩ := List.mem_map.1 he
    have hmem : k ∈ a.attr.keys := (sortStrings_perm _).subset hk
    obtain ⟨v, hv⟩ := GoMap.get_of_mem_keys _ _ hmem
    show a.attr.get k = some (a.attr.index k)
    rw [GoMap.index_of_get hv, hv]
  · rw [String_some, List.map_map]
    rfl

/-- C12: `String()` is empty for the absent attribute set and for a set with empty id, no
classes and no attributes; for every other attribute set it is non-empty and begins with a
space. -/
theorem String_empty_or_space :
    IAL.String none = [] ∧
      (∀ a : IAL, a.id = [] → a.class_.keys = [] → a.attr.keys = [] →
        IAL.String (some a) = []) ∧
      (∀ a : IAL, (a.id ≠ [] ∨ a.class_.keys ≠ [] ∨ a.attr.keys ≠ []) →
        ∃ tl, IAL.String (some a) = ' ' :: tl) := by
  refine ⟨rfl, ?_, ?_⟩
  · intro a h1 h2 h3
    rw [String_some, if_neg (fun h => h h1), if_neg (fun h => h h2), if_neg (fun h => h h3)]
    rfl
  · intro a h
    rw [String_some]
    by_cases h1 : a.id ≠ []
    · rw [if_pos h1]
      exact ⟨_, rfl⟩
    · rw [if_neg h1]
      by_cases h2 : a.class_.keys ≠ []
      · rw [if_pos h2]
        exact ⟨_, rfl⟩
      · rw [if_neg h2]
        have h3 : a.attr.keys ≠ [] := by
          rcases h with h | h | h
          · exact absurd h h1
          · exact absurd h h2
          · exact h
        rw [if_pos h3]
        exact ⟨_, rfl⟩

/-- C12 at the empty set made by `newIAL` and at a set whose only content is the class
`c`. -/
theorem String_empty_or_space_witness :
    IAL.String (some newIAL) = [] ∧
      ∃ tl, IAL.String (some ⟨[], GoMap.empty.set "c".toList true, GoMap.empty⟩) = ' ' :: tl :=
  ⟨String_empty_or_space.2.1 newIAL rfl rfl rfl,
    String_empty_or_space.2.2 ⟨[], GoMap.empty.set "c".toList true, GoMap.empty⟩
      (Or.inr (Or.inl (by decide)))⟩

/-- C13: rendering depends only on the logical content.  Two attribute sets with the same
id, the same set of class names and the same key-to-value mapping render to the same
bytes, whatever the order in which their maps were filled. -/
theorem String_content_only (a b : IAL) (hid : a.id = b.id)
    (hc : ∀ k, k ∈ a.class_.keys ↔ k ∈ b.class_.keys)
    (ha : ∀ k, a.attr.get k = b.attr.get k) :
    IAL.String (some a) = IAL.String (some b) := by
  have hcs : sortStrings a.class_.keys = sortStrings b.class_.keys :=
    sortStrings_eq_of_mem_iff _ _ a.class_.nodup b.class_.nodup hc
  have hak : ∀ k, k ∈ a.attr.keys ↔ k ∈ b.attr.keys :=
    GoMap.mem_keys_iff_of_get_eq _ _ ha
  have has : sortStrings a.attr.keys = sortStrings b.attr.keys :=
    sortStrings_eq_of_mem_iff _ _ a.attr.nodup b.attr.nodup hak
  have hidx : ∀ k, a.attr.index k = b.attr.index k := by
    intro k; unfold GoMap.index; rw [ha]
  have hce : a.class_.keys ≠ [] ↔ b.class_.keys ≠ [] := by
    rw [← List.length_pos, ← List.length_pos, ← sortStrings_length a.class_.keys,
      ← sortStrings_length b.class_.keys, hcs]
  have hae : a.attr.keys ≠ [] ↔ b.attr.keys ≠ [] := by
    rw [← List.length_pos, ← List.length_pos, ← sortStrings_length a.attr.keys,
      ← sortStrings_length b.attr.keys, has]
  rw [String_some, String_some, hid, hcs, has]
  simp only [hidx, hce, hae]

/-- C13 at two sets with classes `c1`, `c2` and attributes `k`, `a` inserted in opposite
orders. -/
theorem String_content_only_witness :
    IAL.String (some ⟨"id".toList, (GoMap.empty.set "c1".toList true).set "c2".toList true,
        (GoMap.empty.set "k".toList "v".toList).set "a".toList "b".toList⟩) =
      IAL.String (some ⟨"id".toList, (GoMap.empty.set "c2".toList true).set "c1".toList true,
        (GoMap.empty.set "a".toList "b".toList).set "k".toList "v".toList⟩) :=
  String_content_only
    ⟨"id".toList, (GoMap.empty.set "c1".toList true).set "c2".toList true,
      (GoMap.empty.set "k".toList "v".toList).set "a".toList "b".toList⟩
    ⟨"id".toList, (GoMap.empty.set "c2".toList true).set "c1".toList true,
      (GoMap.empty.set "a".toList "b".toList).set "k".toList "v".toList⟩
    rfl
    (by
      intro k
      simp only [GoMap.mem_keys_set, GoMap.keys_empty, List.not_mem_nil, or_false]
      exact or_comm)
    (by
      intro k
      simp only [GoMap.get_set, GoMap.get_empty]
      by_cases h1 : k = "a".toList
      · subst h1; decide
      · rw [if_neg h1, if_neg h1])

/-! ## Claims about the consumption accessors -/

theorem GetOrDefaultAttr_snd (a : IAL) (k d : Bytes) :
    (a.GetOrDefaultAttr k d).2 = { a with attr := a.attr.delete k } := by
  unfold IAL.GetOrDefaultAttr
  simp only
  split <;> rfl

theorem GetOrDefaultAttr_fst (a : IAL) (k d : Bytes) :
    (a.GetOrDefaultAttr k d).1 = if a.attr.index k ≠ [] then a.attr.index k else d := by
  unfold IAL.GetOrDefaultAttr
  simp only
  split <;> rfl

/-- C14: when key `k` is present with a non-empty value `v`, the first call
`GetOrDefaultAttr(k, d1)` returns `v` and afterwards `k` is no longer a key of the
attributes; a second call `GetOrDefaultAttr(k, d2)` then returns `d2`. -/
theorem GetOrDefaultAttr_consumes (a : IAL) (k v d1 d2 : Bytes)
    (h : a.attr.get k = some v) (hv : v ≠ []) :
    (a.GetOrDefaultAttr k d1).1 = v ∧
      k ∉ (a.GetOrDefaultAttr k d1).2.attr.keys ∧
      ((a.GetOrDefaultAttr k d1).2.GetOrDefaultAttr k d2).1 = d2 := by
  have hget : (a.attr.delete k).get k = none := by
    rw [GoMap.get_delete, if_pos rfl]
  refine ⟨?_, ?_, ?_⟩
  · rw [GetOrDefaultAttr_fst, GoMap.index_of_get h, if_pos hv]
  · rw [GetOrDefaultAttr_snd]
    exact (GoMap.get_eq_none_iff _ _).1 hget
  · rw [GetOrDefaultAttr_fst, GetOrDefaultAttr_snd]
    show (if (a.attr.delete k).index k ≠ [] then (a.attr.delete k).index k else d2) = d2
    rw [GoMap.index_of_get_none hget, if_neg (fun h => h rfl)]

/-- C14 at the set whose only attribute is `lang` with value `go`. -/
theorem GetOrDefaultAttr_consumes_witness :
    (GoMap.empty.set "lang".toList "go".toList).get "lang".toList = some "go".toList ∧
      "go".toList ≠ [] ∧
      ((IAL.mk [] GoMap.empty (GoMap.empty.set "lang".toList "go".toList)).GetOrDefaultAttr
          "lang".toList "c".toList).1 = "go".toList ∧
      "lang".toList ∉
        ((IAL.mk [] GoMap.empty (GoMap.empty.set "lang".toList "go".toList)).GetOrDefaultAttr
          "lang".toList "c".toList).2.attr.keys ∧
      (((IAL.mk [] GoMap.empty (GoMap.empty.set "lang".toList "go".toList)).GetOrDefaultAttr
          "lang".toList "c".toList).2.GetOrDefaultAttr "lang".toList "d".toList).1 =
        "d".toList :=
  ⟨by decide, by decide,
    GetOrDefaultAttr_consumes (IAL.mk [] GoMap.empty (GoMap.empty.set "lang".toList "go".toList))
      "lang".toList "go".toList "c".toList "d".toList (by decide) (by decide)⟩

/-- C15, the claim as stated, refuted: in the set whose only attribute is `k` with the empty
value, `GetOrDefaultAttr(k, d)` returns `d`, yet the entry for `k`, present before the call,
is absent afterwards, so the attributes are not left unchanged. -/
theorem GetOrDefaultAttr_empty_value_removed :
    (GoMap.empty.set "k".toList ([] : Bytes)).get "k".toList = some [] ∧
      ((IAL.mk [] GoMap.empty (GoMap.empty.set "k".toList [])).GetOrDefaultAttr
        "k".toList "d".toList).1 = "d".toList ∧
      ((IAL.mk [] GoMap.empty (GoMap.empty.set "k".toList [])).GetOrDefaultAttr
        "k".toList "d".toList).2.attr.get "k".toList = none ∧
      ((IAL.mk [] GoMap.empty (GoMap.empty.set "k".toList [])).GetOrDefaultAttr
        "k".toList "d".toList).2.attr ≠ GoMap.empty.set "k".toList [] := by
  decide

/-- C15 as amended: when `k` is absent from the attributes or present with the empty value,
`GetOrDefaultAttr(k, d)` returns `d`; the id and the classes are unchanged; every key other
than `k` keeps its lookup; `k` is absent afterwards; and when `k` was absent the whole set
is unchanged. -/
theorem GetOrDefaultAttr_default (a : IAL) (k d : Bytes)
    (h : a.attr.get k = none ∨ a.attr.get k = some []) :
    (a.GetOrDefaultAttr k d).1 = d ∧
      (a.GetOrDefaultAttr k d).2.id = a.id ∧
      (a.GetOrDefaultAttr k d).2.class_ = a.class_ ∧
      (∀ k1, k1 ≠ k → (a.GetOrDefaultAttr k d).2.attr.get k1 = a.attr.get k1) ∧
      (a.GetOrDefaultAttr k d).2.attr.get k = none ∧
      (a.attr.get k = none → (a.GetOrDefaultAttr k d).2 = a) := by
  have hidx : a.attr.index k = [] := by
    rcases h with h | h
    · exact GoMap.index_of_get_none h
    · exact GoMap.index_of_get h
  refine ⟨?_, ?_, ?_, ?_, ?_, ?_⟩
  · rw [GetOrDefaultAttr_fst, hidx, if_neg (fun h => h rfl)]
  · rw [GetOrDefaultAttr_snd]
  · rw [GetOrDefaultAttr_snd]
  · intro k1 hk1
    rw [GetOrDefaultAttr_snd]
    show (a.attr.delete k).get k1 = a.attr.get k1
    rw [GoMap.get_delete, if_neg hk1]
  · rw [GetOrDefaultAttr_snd]
    show (a.attr.delete k).get k = none
    rw [GoMap.get_delete, if_pos rfl]
  · intro hnone
    rw [GetOrDefaultAttr_snd, GoMap.delete_of_not_mem _ _ ((GoMap.get_eq_none_iff _ _).1 hnone)]

/-- C15 as amended, at a set with attributes `k` (empty value) and `j`, asked for `k`. -/
theorem GetOrDefaultAttr_default_witness :
    (((GoMap.empty.set "j".toList "x".toList).set "k".toList ([] : Bytes)).get "k".toList = none ∨
      ((GoMap.empty.set "j".toList "x".toList).set "k".toList ([] : Bytes)).get "k".toList
        = some []) ∧
    ((IAL.mk [] GoMap.empty
        ((GoMap.empty.set "j".toList "x".toList).set "k".toList [])).GetOrDefaultAttr
      "k".toList "d".toList).1 = "d".toList :=
  ⟨by decide,
    (GetOrDefaultAttr_default
      (IAL.mk [] GoMap.empty ((GoMap.empty.set "j".toList "x".toList).set "k".toList []))
      "k".toList "d".toList (by decide)).1⟩

/-- C16: when the id is non-empty, `GetOrDefaultId(d)` returns the id and leaves the id
empty, so that a second call returns its own default; when the id is empty it returns `d`
and the set is unchanged.  In both cases the classes and the attributes are unchanged. -/
theorem GetOrDefaultId_spec (a : IAL) (d : Bytes) :
    (a.id ≠ [] → (a.GetOrDefaultId d).1 = a.id ∧ (a.GetOrDefaultId d).2.id = [] ∧
        ∀ d2, ((a.GetOrDefaultId d).2.GetOrDefaultId d2).1 = d2) ∧
      (a.id = [] → (a.GetOrDefaultId d).1 = d ∧ (a.GetOrDefaultId d).2 = a) ∧
      (a.GetOrDefaultId d).2.class_ = a.class_ ∧
      (a.GetOrDefaultId d).2.attr = a.attr := by
  unfold IAL.GetOrDefaultId
  by_cases h : a.id = []
  · simp [h]
  · simp [h]

/-- C16 at a set with id `sec` and at the empty set. -/
theorem GetOrDefaultId_spec_witness :
    ((IAL.mk "sec".toList GoMap.empty GoMap.empty).GetOrDefaultId "d".toList).1 = "sec".toList ∧
      ((IAL.mk "sec".toList GoMap.empty GoMap.empty).GetOrDefaultId "d".toList).2.id = [] ∧
      (newIAL.GetOrDefaultId "d".toList).1 = "d".toList :=
  ⟨((GetOrDefaultId_spec (IAL.mk "sec".toList GoMap.empty GoMap.empty) "d".toList).1
      (by decide)).1,
    ((GetOrDefaultId_spec (IAL.mk "sec".toList GoMap.empty GoMap.empty) "d".toList).1
      (by decide)).2.1,
    ((GetOrDefaultId_spec newIAL "d".toList).2.1 rfl).1⟩

/-! ## Associativity of the merge -/

/-- C20: merge is associative on content.  For present attribute sets `A`, `B`, `C`, the sets
`add(add(A, B), C)` and `add(A, add(B, C))` have the same id, the same classes and the same
attributes. -/
theorem add_assoc_content (A B C : IAL) :
    (IAL.add (some (IAL.add (some A) B)) C).id = (IAL.add (some A) (IAL.add (some B) C)).id ∧
      (∀ k, k ∈ (IAL.add (some (IAL.add (some A) B)) C).class_.keys ↔
        k ∈ (IAL.add (some A) (IAL.add (some B) C)).class_.keys) ∧
      (∀ k, (IAL.add (some (IAL.add (some A) B)) C).class_.get k =
        (IAL.add (some A) (IAL.add (some B) C)).class_.get k) ∧
      (∀ k, k ∈ (IAL.add (some (IAL.add (some A) B)) C).attr.keys ↔
        k ∈ (IAL.add (some A) (IAL.add (some B) C)).attr.keys) ∧
      (∀ k, (IAL.add (some (IAL.add (some A) B)) C).attr.get k =
        (IAL.add (some A) (IAL.add (some B) C)).attr.get k) := by
  refine ⟨?_, ?_, ?_, ?_, ?_⟩
  · simp only [add_id]
    by_cases hc : C.id = []
    · simp [hc]
    · simp [hc]
  · intro k
    simp only [add_class_keys]
    tauto
  · intro k
    simp only [add_class_get, add_class_keys]
    by_cases hc : k ∈ C.class_.keys
    · simp [hc]
    · simp [hc]
  · intro k
    simp only [add_attr_keys]
    tauto
  · intro k
    simp only [add_attr_get, add_attr_keys]
    by_cases hc : k ∈ C.attr.keys
    · simp [hc]
    · simp [hc]

/-! ## Facts about single tokens -/

theorem scan_skip_token (p : parser) (data : Bytes) :
    ∀ (t rest : Bytes) (i : Nat) (quote : Bool) (ialB : Nat) (ial : IAL),
      (∀ c ∈ t, c ≠ ' ' ∧ c ≠ '\\' ∧ c ≠ '}') →
      ∃ q, isIAL.scan p data (t ++ rest) i false quote ialB ial =
        isIAL.scan p data rest (i + t.length) false q ialB ial := by
  intro t
  induction t with
  | nil => intro rest i quote ialB ial _; exact ⟨quote, rfl⟩
  | cons c t ih =>
    intro rest i quote ialB ial h
    obtain ⟨h1, h2, h3⟩ := h c (List.mem_cons_self c t)
    have ht : ∀ c ∈ t, c ≠ ' ' ∧ c ≠ '\\' ∧ c ≠ '}' :=
      fun c hc => h c (List.mem_cons_of_mem _ hc)
    have hlen : i + (c :: t).length = i + 1 + t.length := by
      rw [List.length_cons]; omega
    rw [List.cons_append, hlen]
    by_cases hq : c = '"'
    · subst hq
      rw [scan_quote]
      exact ih rest (i + 1) (!quote) ialB ial ht
    · have hstep : isIAL.scan p data (c :: (t ++ rest)) i false quote ialB ial =
          isIAL.scan p data (t ++ rest) (i + 1) false quote ialB ial := by
        conv_lhs => unfold isIAL.scan
        rw [if_neg h1, if_neg hq, if_neg h2, if_neg h3]
      rw [hstep]
      exact ih rest (i + 1) quote ialB ial ht

theorem scan_close_gen (p : parser) (data rest : Bytes) (i ialB : Nat) (quote : Bool)
    (ial : IAL) (s chunk : Bytes) (hs : slice data 1 i = some s)
    (hchunk : slice data (ialB + 1) i = some chunk) :
    isIAL.scan p data ('}' :: rest) i false quote ialB ial =
      if reserved s then some (0, p)
      else if chunk.length = 0 then some (i + 1, p)
      else (classify ial chunk).map
        (fun ial1 => (i + 1, { ial := some (IAL.add p.ial ial1) })) := by
  unfold isIAL.scan
  simp only [Char.reduceEq, if_false, if_true, Bool.false_eq_true, hs, hchunk]
  split
  · rfl
  · split
    · rfl
    · cases classify ial chunk <;> rfl

theorem reserved_no_eq (s : Bytes) (h : '=' ∈ s) : reserved s = false := by
  cases hb : reserved s with
  | false => rfl
  | true =>
    exfalso
    rcases (reserved_iff s).1 hb with e | e | e <;> subst e <;> revert h <;> decide

theorem token_split (t : Bytes) (h : '=' ∈ t) :
    t = tokenKey t ++ '=' :: (t.dropWhile (fun c => decide (c ≠ '='))).drop 1 := by
  unfold tokenKey
  induction t with
  | nil => simp at h
  | cons c cs ih =>
    by_cases hc : c = '='
    · subst hc
      simp
    · have hmem : '=' ∈ cs := by
        rcases List.mem_cons.1 h with e | e
        · exact absurd e.symm hc
        · exact e
      have hd : decide (c ≠ '=') = true := by simpa using hc
      rw [List.takeWhile_cons, List.dropWhile_cons, hd]
      simp only [if_true, List.cons_append]
      rw [← ih hmem]

theorem tokenKey_no_eq (t : Bytes) : ∀ c ∈ tokenKey t, c ≠ '=' := by
  intro c hc
  have := List.mem_takeWhile_imp hc
  simpa using this

theorem tokenKey_head (t : Bytes) (h : t.head? ≠ some '=') (hne : t ≠ []) :
    tokenKey t ≠ [] ∧ (tokenKey t).head? = t.head? := by
  cases t with
  | nil => exact absurd rfl hne
  | cons c cs =>
    have hc : c ≠ '=' := fun e => h (by rw [e]; rfl)
    have hd : decide (c ≠ '=') = true := by simpa using hc
    unfold tokenKey
    rw [List.takeWhile_cons, hd]
    exact ⟨List.cons_ne_nil _ _, rfl⟩

theorem classify_no_eq (ial : IAL) (t : Bytes) (hne : t ≠ []) (h1 : t.head? ≠ some '.')
    (h2 : t.head? ≠ some '#') (h : '=' ∉ t) : classify ial t = some ial := by
  cases t with
  | nil => exact absurd rfl hne
  | cons c x =>
    have hc1 : c ≠ '.' := fun e => h1 (by rw [e]; rfl)
    have hc2 : c ≠ '#' := fun e => h2 (by rw [e]; rfl)
    unfold classify
    simp only [if_neg hc1, if_neg hc2]
    unfold parseKeyValue
    rw [splitN2_spec, if_neg h]
    simp

theorem classify_eq_first (ial : IAL) (w : Bytes) : classify ial ('=' :: w) = some ial := by
  unfold classify
  simp only [Char.reduceEq, if_false]
  unfold parseKeyValue
  simp [splitN2]

theorem slice_body (t : Bytes) :
    slice ('{' :: (t ++ ['}'])) (0 + 1) (1 + t.length) = some t :=
  slice_mid ['{'] t ['}']

/-! ## Claims about key/value tokens and escapes -/

/-- C17, the claim as stated, refuted: the token `=v` does not begin with `.` or `#`, holds no
space, backslash or closing brace, and contains `=`; its key (the text before the first `=`)
is empty and its value is `v`; yet scanning `{=v}` with no previous aggregate returns 4 with
the empty attribute set as aggregate, in which that key has no value. -/
theorem isIAL_empty_key_not_recorded :
    ("=v".toList.head? ≠ some '.' ∧ "=v".toList.head? ≠ some '#' ∧
      (∀ c ∈ "=v".toList, c ≠ ' ' ∧ c ≠ '\\' ∧ c ≠ '}') ∧ '=' ∈ "=v".toList) ∧
      tokenKey "=v".toList = [] ∧ tokenValue "=v".toList = "v".toList ∧
      isIAL ⟨none⟩ "\x7b=v\x7d".toList = some (4, ⟨some newIAL⟩) ∧
      newIAL.attr.get (tokenKey "=v".toList) = none := by
  decide

/-- C17 as amended: for every token `t` that does not begin with `.` or `#` and contains no
space, backslash or closing brace: when `t` contains `=` and does not begin with `=`,
scanning `{t}` returns the full length and folds into the aggregate the set whose only
attribute is the key of `t` (the text before the first `=`) with the value of `t` (the text
after it, double quotes removed), so the aggregate has that value at that key; when `t` has
no `=`, or begins with `=`, the scan returns and contributes nothing: the aggregate is what
it was, or the empty set if it was absent. -/
theorem isIAL_keyValue_token (p : parser) (t : Bytes) (h1 : t.head? ≠ some '.')
    (h2 : t.head? ≠ some '#') (hc : ∀ c ∈ t, c ≠ ' ' ∧ c ≠ '\\' ∧ c ≠ '}') :
    ('=' ∈ t → t.head? ≠ some '=' →
      isIAL p ('{' :: (t ++ ['}'])) =
          some (('{' :: (t ++ ['}'])).length,
            { ial := some (IAL.add p.ial
              (IAL.mk [] GoMap.empty (GoMap.empty.set (tokenKey t) (tokenValue t)))) }) ∧
        (IAL.add p.ial (IAL.mk [] GoMap.empty
          (GoMap.empty.set (tokenKey t) (tokenValue t)))).attr.get (tokenKey t) =
          some (tokenValue t)) ∧
      (('=' ∉ t ∨ t.head? = some '=') →
        ∃ n p1, isIAL p ('{' :: (t ++ ['}'])) = some (n, p1) ∧
          (p1.ial = p.ial ∨ (p.ial = none ∧ p1.ial = some newIAL))) := by
  obtain ⟨q, hq⟩ := scan_skip_token p ('{' :: (t ++ ['}'])) t ['}'] 1 false 0 newIAL hc
  have hscan := scan_close_gen p ('{' :: (t ++ ['}'])) [] (1 + t.length) 0 q newIAL t t
    (slice_body t) (slice_body t)
  have hlen : ('{' :: (t ++ ['}'])).length = 1 + t.length + 1 := by
    simp only [List.length_append, List.length_cons, List.length_singleton, List.length_nil]
    omega
  constructor
  · intro heq hhead
    have hne : t ≠ [] := fun e => by rw [e] at heq; simp at heq
    have hlen0 : ¬ t.length = 0 := fun e => hne (List.length_eq_zero.1 e)
    obtain ⟨hk, hkh⟩ := tokenKey_head t hhead hne
    have hcl := classify_keyValue newIAL (tokenKey t)
      ((t.dropWhile (fun c => decide (c ≠ '='))).drop 1) hk (tokenKey_no_eq t)
      (hkh ▸ h1) (hkh ▸ h2)
    rw [← token_split t heq] at hcl
    constructor
    · rw [isIAL_open, hq, hscan, reserved_no_eq t heq, hcl, hlen]
      simp only [Bool.false_eq_true, if_false, hlen0]
      rfl
    · cases hp : p.ial with
      | none =>
        show (GoMap.empty.set (tokenKey t) (tokenValue t)).get (tokenKey t) = _
        rw [GoMap.get_set, if_pos rfl]
      | some T =>
        rw [add_attr_get]
        have hmem : tokenKey t ∈
            (GoMap.empty.set (tokenKey t) (tokenValue t) : GoMap Bytes).keys :=
          (GoMap.mem_keys_set _ _ _ _).2 (Or.inl rfl)
        rw [if_pos hmem, GoMap.get_set, if_pos rfl]
  · intro hno
    rw [isIAL_open, hq, hscan]
    by_cases hr : reserved t = true
    · rw [if_pos hr]
      exact ⟨0, p, rfl, Or.inl rfl⟩
    · rw [if_neg hr]
      by_cases hl : t.length = 0
      · rw [if_pos hl]
        exact ⟨_, p, rfl, Or.inl rfl⟩
      · rw [if_neg hl]
        have hne : t ≠ [] := fun e => hl (by rw [e]; rfl)
        have hcl : classify newIAL t = some newIAL := by
          rcases hno with hno | hno
          · exact classify_no_eq newIAL t hne h1 h2 hno
          · cases t with
            | nil => exact absurd rfl hne
            | cons c w =>
              simp only [List.head?_cons, Option.some.injEq] at hno
              subst hno
              exact classify_eq_first newIAL w
        rw [hcl]
        refine ⟨_, _, rfl, ?_⟩
        cases hp : p.ial with
        | none => exact Or.inr ⟨rfl, rfl⟩
        | some T => exact Or.inl (by rw [add_newIAL])

/-- C17 as amended, at the token `a="x"y=z` (quotes inside, a second `=`) with a previous
aggregate in which `a` is `old`. -/
theorem isIAL_keyValue_token_witness :
    ("a=\"x\"y=z".toList.head? ≠ some '.' ∧ "a=\"x\"y=z".toList.head? ≠ some '#' ∧
      (∀ c ∈ "a=\"x\"y=z".toList, c ≠ ' ' ∧ c ≠ '\\' ∧ c ≠ '}') ∧
      '=' ∈ "a=\"x\"y=z".toList ∧ "a=\"x\"y=z".toList.head? ≠ some '=') ∧
    tokenKey "a=\"x\"y=z".toList = "a".toList ∧
    tokenValue "a=\"x\"y=z".toList = "xy=z".toList ∧
    (IAL.add (some ⟨[], GoMap.empty, GoMap.empty.set "a".toList "old".toList⟩)
      (IAL.mk [] GoMap.empty (GoMap.empty.set (tokenKey "a=\"x\"y=z".toList)
        (tokenValue "a=\"x\"y=z".toList)))).attr.get (tokenKey "a=\"x\"y=z".toList) =
      some (tokenValue "a=\"x\"y=z".toList) :=
  ⟨by decide, by decide, by decide,
    ((isIAL_keyValue_token ⟨some ⟨[], GoMap.empty, GoMap.empty.set "a".toList "old".toList⟩⟩
      "a=\"x\"y=z".toList (by decide) (by decide) (by decide)).1 (by decide) (by decide)).2⟩

/-- C18: the claim that a closing brace is passed over only when the byte just before it is
a backslash, evaluated on `{\ }x}`: the byte at index 3 is a closing brace, the byte at
index 2 is a space, yet the scan passes over index 3 and closes at index 5, returning 6;
and on `{\ }` alone it returns 0. -/
theorem isIAL_escape_survives_space :
    "\x7b\\ \x7dx\x7d".toList[3]? = some '}' ∧ "\x7b\\ \x7dx\x7d".toList[2]? = some ' ' ∧
      isIAL ⟨none⟩ "\x7b\\ \x7dx\x7d".toList = some (6, ⟨some newIAL⟩) ∧
      isIAL ⟨none⟩ "\x7b\\ \x7d".toList = some (0, ⟨none⟩) := by
  decide

/-! ## Bounds safety of the scan -/

theorem steps_invariant (data : Bytes) :
    ∀ (rest : Bytes) (i : Nat) (esc quote : Bool) (ialB : Nat),
      i + rest.length = data.length → ialB < i →
      ∀ s ∈ isIAL.steps data rest i esc quote ialB, s.1 < data.length ∧ s.2.1 < s.1 := by
  intro rest
  induction rest with
  | nil =>
    intro i esc quote ialB _ _ s hs
    simp [isIAL.steps] at hs
  | cons c rest ih =>
    intro i esc quote ialB hlen hB s hs
    have hlen1 : i + 1 + rest.length = data.length := by
      rw [List.length_cons] at hlen; omega
    have hhead : i < data.length := by
      rw [List.length_cons] at hlen; omega
    unfold isIAL.steps at hs
    split_ifs at hs <;>
      rcases List.mem_cons.1 hs with hs | hs <;>
      first
      | (subst hs; exact ⟨hhead, hB⟩)
      | exact ih _ _ _ _ hlen1 (by omega) s hs
      | (split at hs <;> first | simp at hs | exact ih _ _ _ _ hlen1 (by omega) s hs)
      | simp at hs

theorem steps_open (rest : Bytes) :
    isIAL.steps ('{' :: rest) ('{' :: rest) 0 false false 0 =
      (0, 0, false) :: isIAL.steps ('{' :: rest) rest 1 false false 0 := by
  simp [isIAL.steps]

theorem scan_space_any (p : parser) (data rest : Bytes) (i ialB : Nat) (esc : Bool)
    (ial : IAL) (chunk : Bytes) (hchunk : slice data (ialB + 1) i = some chunk) :
    ∃ ial1, isIAL.scan p data (' ' :: rest) i esc false ialB ial =
      isIAL.scan p data rest (i + 1) esc false i ial1 := by
  by_cases hl : chunk.length = 0
  · refine ⟨ial, ?_⟩
    conv_lhs => unfold isIAL.scan
    simp only [if_true, Bool.false_eq_true, if_false, hchunk, hl]
  · obtain ⟨a, ha⟩ := classify_some ial chunk hl
    refine ⟨a, ?_⟩
    conv_lhs => unfold isIAL.scan
    simp only [if_true, Bool.false_eq_true, if_false, hchunk, hl, ha]

/-- Every entry of the trace is a loop state of the scan: the scan from the entry state
continues as the scan from the recorded `i` and `ialB` with some escape flag, quote flag and
attribute set, and the recorded flag tells whether that iteration takes a slice. -/
theorem steps_reached (p : parser) (data : Bytes) :
    ∀ (rest : Bytes) (i : Nat) (esc quote : Bool) (ialB : Nat) (ial : IAL),
      data.drop i = rest → ialB < i →
      ∀ s ∈ isIAL.steps data rest i esc quote ialB,
        ∃ esc1 quote1 ial1,
          isIAL.scan p data rest i esc quote ialB ial =
            isIAL.scan p data (data.drop s.1) s.1 esc1 quote1 s.2.1 ial1 ∧
          (s.2.2 = true ↔
            (data[s.1]? = some ' ' ∧ quote1 = false) ∨ (data[s.1]? = some '}' ∧ esc1 = false)) := by
  intro rest
  induction rest with
  | nil =>
    intro i esc quote ialB ial _ _ s hs
    simp [isIAL.steps] at hs
  | cons c rest ih =>
    intro i esc quote ialB ial hdrop hB s hs
    have hdrop1 : data.drop (i + 1) = rest := by
      rw [← List.tail_drop, hdrop]; rfl
    have hget : data[i]? = some c := by
      rw [← List.head?_drop, hdrop]; rfl
    have hi : i ≤ data.length := by
      have := congrArg List.length hdrop
      rw [List.length_drop, List.length_cons] at this
      omega
    have hchunk := slice_eq data (ialB + 1) i hB hi
    have hhead : ∀ f : Bool,
        (f = true ↔ (c = ' ' ∧ quote = false) ∨ (c = '}' ∧ esc = false)) →
        ∃ esc1 quote1 ial1,
          isIAL.scan p data (c :: rest) i esc quote ialB ial =
            isIAL.scan p data (data.drop i) i esc1 quote1 ialB ial1 ∧
          (f = true ↔
            (data[i]? = some ' ' ∧ quote1 = false) ∨ (data[i]? = some '}' ∧ esc1 = false)) := by
      intro f hf
      refine ⟨esc, quote, ial, by rw [hdrop], ?_⟩
      rw [hget]
      simpa using hf
    unfold isIAL.steps at hs
    by_cases h1 : c = ' '
    · subst h1
      rw [if_pos rfl] at hs
      cases quote with
      | true =>
        rw [if_pos rfl] at hs
        rcases List.mem_cons.1 hs with hs | hs
        · subst hs
          exact hhead false (by simp)
        · have hstep : isIAL.scan p data (' ' :: rest) i esc true ialB ial =
              isIAL.scan p data rest (i + 1) esc true ialB ial := by
            conv_lhs => unfold isIAL.scan
            simp only [if_true]
          rw [hstep]
          exact ih _ _ _ _ _ hdrop1 (by omega) s hs
      | false =>
        rw [if_neg (by simp)] at hs
        rcases List.mem_cons.1 hs with hs | hs
        · subst hs
          exact hhead true (by simp)
        · rw [hchunk] at hs
          obtain ⟨ial1, hstep⟩ := scan_space_any p data rest i ialB esc ial _ hchunk
          rw [hstep]
          exact ih _ _ _ _ _ hdrop1 (by omega) s hs
    · rw [if_neg h1] at hs
      by_cases h2 : c = '"'
      · subst h2
        rw [if_pos rfl] at hs
        cases esc with
        | true =>
          rw [if_pos rfl] at hs
          rcases List.mem_cons.1 hs with hs | hs
          · subst hs
            exact hhead false (by simp)
          · have hstep : isIAL.scan p data ('"' :: rest) i true quote ialB ial =
                isIAL.scan p data rest (i + 1) (!true) quote ialB ial := by
              conv_lhs => unfold isIAL.scan
              simp only [Char.reduceEq, if_false, if_true]
            rw [hstep]
            exact ih _ _ _ _ _ hdrop1 (by omega) s hs
        | false =>
          rw [if_neg (by simp)] at hs
          rcases List.mem_cons.1 hs with hs | hs
          · subst hs
            exact hhead false (by simp)
          · rw [scan_quote]
            exact ih _ _ _ _ _ hdrop1 (by omega) s hs
      · rw [if_neg h2] at hs
        by_cases h3 : c = '\\'
        · subst h3
          rw [if_pos rfl] at hs
          rcases List.mem_cons.1 hs with hs | hs
          · subst hs
            exact hhead false (by simp)
          · have hstep : isIAL.scan p data ('\\' :: rest) i esc quote ialB ial =
                isIAL.scan p data rest (i + 1) (!esc) quote ialB ial := by
              conv_lhs => unfold isIAL.scan
              simp only [Char.reduceEq, if_false, if_true]
            rw [hstep]
            exact ih _ _ _ _ _ hdrop1 (by omega) s hs
        · rw [if_neg h3] at hs
          by_cases h4 : c = '}'
          · subst h4
            rw [if_pos rfl] at hs
            cases esc with
            | true =>
              rw [if_pos rfl] at hs
              rcases List.mem_cons.1 hs with hs | hs
              · subst hs
                exact hhead false (by simp)
              · have hstep : isIAL.scan p data ('}' :: rest) i true quote ialB ial =
                    isIAL.scan p data rest (i + 1) (!true) quote ialB ial := by
                  conv_lhs => unfold isIAL.scan
                  simp only [Char.reduceEq, if_false, if_true]
                rw [hstep]
                exact ih _ _ _ _ _ hdrop1 (by omega) s hs
            | false =>
              rw [if_neg (by simp)] at hs
              rw [List.mem_singleton] at hs
              subst hs
              exact hhead true (by simp)
          · rw [if_neg h4] at hs
            rcases List.mem_cons.1 hs with hs | hs
            · subst hs
              exact hhead false (by simp [h1, h4])
            · have hstep : isIAL.scan p data (c :: rest) i esc quote ialB ial =
                  isIAL.scan p data rest (i + 1) false quote ialB ial := by
                conv_lhs => unfold isIAL.scan
                rw [if_neg h1, if_neg h2, if_neg h3, if_neg h4]
              rw [hstep]
              exact ih _ _ _ _ _ hdrop1 (by omega) s hs

/-- The trace records every iteration: its indices are consecutive, starting at the entry
index. -/
theorem steps_indices (data : Bytes) :
    ∀ (rest : Bytes) (i : Nat) (esc quote : Bool) (ialB : Nat),
      (isIAL.steps data rest i esc quote ialB).map (fun s => s.1) =
        List.range' i (isIAL.steps data rest i esc quote ialB).length := by
  intro rest
  induction rest with
  | nil => intro i esc quote ialB; rfl
  | cons c rest ih =>
    intro i esc quote ialB
    unfold isIAL.steps
    split_ifs <;>
      first
      | rfl
      | (simp only [List.map_cons, List.length_cons, List.range'_succ, ih]; done)
      | (split <;> first
          | rfl
          | simp only [List.map_cons, List.length_cons, List.range'_succ, ih])

/-- C19, the claim as stated, refuted: on `{}` the first iteration of the loop is at `i = 0`
with `ialB = 0`, so `ialB < i` does not hold at every step. -/
theorem isIAL_first_step_boundary :
    "\x7b\x7d".toList.head? = some '{' ∧
      (0, 0, false) ∈ isIAL.steps "\x7b\x7d".toList "\x7b\x7d".toList 0 false false 0 ∧
      ¬ ∀ s ∈ isIAL.steps "\x7b\x7d".toList "\x7b\x7d".toList 0 false false 0,
        s.2.1 < s.1 := by
  decide

/-- C19 as amended: on an input whose first byte is the opening brace, `isIAL` returns an
integer (no slice or index goes out of bounds).  The loop states bear this out: the
iterations are at `i = 0, 1, 2, ...`; each is a state the scan passes through; every
iteration has `i < len(data)`; `ialB < i` holds at every iteration but the first, which is
at `i = 0` with `ialB = 0`, reads the opening brace and takes no slice; so every iteration
that takes a slice (a space outside quotes, an unescaped closing brace) has `ialB < i`, and
`data[ialB+1:i]` and `data[1:i]` are well formed. -/
theorem isIAL_total (p : parser) (data : Bytes) (h : data.head? = some '{') :
    (∃ n p1, isIAL p data = some (n, p1)) ∧
      (isIAL.steps data data 0 false false 0).map (fun s => s.1) =
        List.range (isIAL.steps data data 0 false false 0).length ∧
      ∀ s ∈ isIAL.steps data data 0 false false 0,
        s.1 < data.length ∧ (s.2.2 = true → s.2.1 < s.1) ∧ (s.1 = 0 ∨ s.2.1 < s.1) ∧
          ∃ esc quote ial,
            isIAL p data = isIAL.scan p data (data.drop s.1) s.1 esc quote s.2.1 ial ∧
            (s.2.2 = true ↔
              (data[s.1]? = some ' ' ∧ quote = false) ∨
                (data[s.1]? = some '}' ∧ esc = false)) := by
  refine ⟨?_, ?_, ?_⟩
  · obtain ⟨r, hr, _⟩ := isIAL_outcome p data h
    exact ⟨r.1, r.2, hr⟩
  · rw [List.range_eq_range']
    exact steps_indices data data 0 false false 0
  · cases data with
    | nil => simp at h
    | cons c rest =>
      simp only [List.head?_cons, Option.some.injEq] at h
      subst h
      intro s hs
      rw [steps_open] at hs
      rcases List.mem_cons.1 hs with hs | hs
      · subst hs
        refine ⟨by simp, fun hf => absurd hf (by decide), Or.inl rfl,
          false, false, newIAL, rfl, ?_⟩
        simp
      · have hinv := steps_invariant ('{' :: rest) rest 1 false false 0 (by simp; omega)
          (by omega) s hs
        obtain ⟨esc1, quote1, ial1, hreach, hflag⟩ :=
          steps_reached p ('{' :: rest) rest 1 false false 0 newIAL rfl (by omega) s hs
        refine ⟨hinv.1, fun _ => hinv.2, Or.inr hinv.2, esc1, quote1, ial1, ?_, hflag⟩
        rw [isIAL_open]
        exact hreach

/-- C19 as amended, at the input `{.a b="c d" }`, on which `isIAL` returns 13. -/
theorem isIAL_total_witness :
    "\x7b.a b=\"c d\" \x7d".toList.head? = some '{' ∧
      isIAL ⟨none⟩ "\x7b.a b=\"c d\" \x7d".toList = some (13, ⟨none⟩) ∧
      (∃ n p1, isIAL ⟨none⟩ "\x7b.a b=\"c d\" \x7d".toList = some (n, p1)) ∧
      (isIAL.steps "\x7b.a b=\"c d\" \x7d".toList "\x7b.a b=\"c d\" \x7d".toList
          0 false false 0).map (fun s => s.1) =
        List.range (isIAL.steps "\x7b.a b=\"c d\" \x7d".toList
          "\x7b.a b=\"c d\" \x7d".toList 0 false false 0).length :=
  ⟨by decide, by decide,
    (isIAL_total ⟨none⟩ "\x7b.a b=\"c d\" \x7d".toList (by decide)).1,
    (isIAL_total ⟨none⟩ "\x7b.a b=\"c d\" \x7d".toList (by decide)).2.1⟩

end Mmark
